import Mathlib

/-!
Verification of the gmap history-ingestion core against its specification.

This file gives a shallow embedding, in Lean 4, of the data model and the
operations of the gmap repository's core (the commit walker, the line-diff
engine, the blob inspector, the change handler, the cache, and the fetch
orchestrator), translated from the Rust sources (src/model.rs,
src/git/repo.rs, src/cache.rs, src/heat/fetch.rs), together with theorems
settling the specification claims.

Conventions of the embedding:
* `DateTime<Utc>` timestamps are modelled as `Int` (seconds since epoch);
  both the in-memory comparisons and the SQL comparisons in the source go
  through the same seconds value, so the order is preserved.
* machine integers (`u32`, counters) are modelled as `Nat`; no operation
  in the embedded code can overflow a `u32` on inputs of interest, and no
  wrap-around arithmetic occurs in the source.
* fallible operations return `Except GmapError`; the SQLite tables are
  modelled as Lean lists of rows, with the SQL statements of src/cache.rs
  translated one by one into list operations.
* the two `while` loops of the source (the line-diff loop and the commit
  walk) are embedded as fuel-indexed structural recursions; running out of
  fuel yields a distinguished value (`none`, or an `.error`), never a
  default result, so any `some`/`.ok` result certifies that the loop of
  the source genuinely terminates with that value.  A sufficiency lemma
  (`lineDiffGo_isSome`) shows the chosen fuel bound always suffices for
  the line-diff loop.
-/

namespace Gmap

/-! ### Data model (src/model.rs) -/

/-- `SCHEMA_VERSION` from src/model.rs line 5. -/
def SCHEMA_VERSION : Int := 1

/-- `CommitInfo` from src/model.rs (timestamps as epoch seconds). -/
structure CommitInfo where
  id : String
  author_name : String
  author_email : String
  message : String
  timestamp : Int
  parent_ids : List String
deriving DecidableEq, Repr

/-- `FileStats` from src/model.rs. -/
structure FileStats where
  path : String
  added_lines : Nat
  deleted_lines : Nat
  is_binary : Bool
deriving DecidableEq, Repr

/-- `CommitStats` from src/model.rs. -/
structure CommitStats where
  commit_id : String
  files : List FileStats
deriving DecidableEq, Repr

/-- `DateRange` from src/model.rs. -/
structure DateRange where
  since : Option Int
  until_ : Option Int
deriving DecidableEq, Repr

/-- `DateRange::contains` from src/model.rs lines 134-146: both bounds
inclusive, absent bounds impose no constraint. -/
def DateRange.contains (r : DateRange) (timestamp : Int) : Bool :=
  (match r.since with
   | some s => decide (¬ timestamp < s)
   | none => true) &&
  (match r.until_ with
   | some u => decide (¬ timestamp > u)
   | none => true)

/-- The error taxonomy of src/error.rs, restricted to the constructors the
embedded code paths can produce (the other constructors wrap external
library errors that do not arise inside the embedding). -/
inductive GmapError where
  | GitRepo (msg : String)
  | Cache (msg : String)
  | Parse (msg : String)
  | InvalidDate (msg : String)
  | Other (msg : String)
deriving DecidableEq, Repr

/-! ### LineDiffEngine (src/git/repo.rs `compute_line_diff`, lines 331-383)

The Rust loop walks two line vectors with cursors `oi`, `ni` and counters
`added`, `deleted`.  The embedding `lineDiffGo` is the loop body verbatim,
indexed by fuel; `compute_line_diff` runs it with fuel
`old.length + new.length`, which `lineDiffGo_isSome` proves sufficient.
List indexing `old_lines[i]` is rendered as `List.getD i ""`; every index
use is guarded by the same bounds check as in the source, so the default
is never consulted. -/

def lineDiffGo (old new : List String) :
    Nat → Nat → Nat → Nat → Nat → Option (Nat × Nat)
  | 0, oi, ni, added, deleted =>
    if oi < old.length ∨ ni < new.length then none
    else some (added, deleted)
  | fuel + 1, oi, ni, added, deleted =>
    if oi < old.length ∨ ni < new.length then
      (if old.length ≤ oi then
          some (added + (new.length - ni), deleted)
        else if new.length ≤ ni then
          some (added, deleted + (old.length - oi))
        else if old.getD oi "" == new.getD ni "" then
          lineDiffGo old new fuel (oi + 1) (ni + 1) added deleted
        else if oi + 1 < old.length && old.getD (oi + 1) "" == new.getD ni "" then
          lineDiffGo old new fuel (oi + 1) ni added (deleted + 1)
        else if ni + 1 < new.length && old.getD oi "" == new.getD (ni + 1) "" then
          lineDiffGo old new fuel oi (ni + 1) (added + 1) deleted
        else if oi + 2 < old.length && old.getD (oi + 2) "" == new.getD ni "" then
          lineDiffGo old new fuel (oi + 2) ni added (deleted + 2)
        else if ni + 2 < new.length && old.getD oi "" == new.getD (ni + 2) "" then
          lineDiffGo old new fuel oi (ni + 2) (added + 2) deleted
        else if oi + 3 < old.length && old.getD (oi + 3) "" == new.getD ni "" then
          lineDiffGo old new fuel (oi + 3) ni added (deleted + 3)
        else if ni + 3 < new.length && old.getD oi "" == new.getD (ni + 3) "" then
          lineDiffGo old new fuel oi (ni + 3) (added + 3) deleted
        else
          lineDiffGo old new fuel (oi + 1) (ni + 1) (added + 1) (deleted + 1))
    else
      some (added, deleted)

/-- `compute_line_diff` from src/git/repo.rs lines 331-383, on the line
vectors (the UTF-8 decode `str::from_utf8(..).unwrap_or("")` and the
`str::lines` split happen before this loop; see `Blob`).  Returns
`(added, deleted)`. -/
def compute_line_diff (old new : List String) : Option (Nat × Nat) :=
  lineDiffGo old new (old.length + new.length) 0 0 0 0

/-- One lookahead probe of the window: `(true, k)` is the deletion check
`old[oi+k] == new[ni]` (with its bounds guard), `(false, k)` the insertion
check `new[ni+k] == old[oi]`, exactly as in repo.rs lines 360 and 366. -/
def probeMatches (old new : List String) (oi ni : Nat) : Bool × Nat → Bool
  | (true, k) => oi + k < old.length && old.getD (oi + k) "" == new.getD ni ""
  | (false, k) => ni + k < new.length && old.getD oi "" == new.getD (ni + k) ""

/-- The order in which repo.rs lines 359-372 try the six window checks:
for each lookahead distance the deletion check comes first, but the
insertion check at distance k precedes the deletion check at k+1. -/
def interleavedProbeOrder : List (Bool × Nat) :=
  [(true, 1), (false, 1), (true, 2), (false, 2), (true, 3), (false, 3)]

/-- The probe order asserted by the specification sentence behind claim
C2: all three deletion checks before any insertion check. -/
def claimedProbeOrder : List (Bool × Nat) :=
  [(true, 1), (true, 2), (true, 3), (false, 1), (false, 2), (false, 3)]

/-- Modelled from the spec: the line-diff loop as claim C2 describes it,
identical to `lineDiffGo` except that the bounded lookahead window is
probed with all deletion checks before any insertion check
(`claimedProbeOrder`), for comparison against the source's loop. -/
def claimLineDiffGo (old new : List String) :
    Nat → Nat → Nat → Nat → Nat → Option (Nat × Nat)
  | 0, oi, ni, added, deleted =>
    if oi < old.length ∨ ni < new.length then none
    else some (added, deleted)
  | fuel + 1, oi, ni, added, deleted =>
    if oi < old.length ∨ ni < new.length then
      (if old.length ≤ oi then
        some (added + (new.length - ni), deleted)
      else if new.length ≤ ni then
        some (added, deleted + (old.length - oi))
      else if old.getD oi "" == new.getD ni "" then
        claimLineDiffGo old new fuel (oi + 1) (ni + 1) added deleted
      else
        match claimedProbeOrder.find? (probeMatches old new oi ni) with
        | some (true, k) => claimLineDiffGo old new fuel (oi + k) ni added (deleted + k)
        | some (false, k) => claimLineDiffGo old new fuel oi (ni + k) (added + k) deleted
        | none => claimLineDiffGo old new fuel (oi + 1) (ni + 1) (added + 1) (deleted + 1))
    else
      some (added, deleted)

/-- Modelled from the spec: `compute_line_diff` under claim C2's probe
order. -/
def claim_line_diff (old new : List String) : Option (Nat × Nat) :=
  claimLineDiffGo old new (old.length + new.length) 0 0 0 0

/-! ### BlobInspector and change handling (src/git/repo.rs lines 227-329)

A `Blob` models one content object as handed back by `find_object`: its
raw bytes, plus the line vector that the Rust code derives from it by
`str::from_utf8(data).unwrap_or("").lines()`.  The standard-library UTF-8
decode and line split are not re-implemented; a blob carries both views,
with the convention that an invalid-UTF-8 blob carries `lines = []`
(matching `unwrap_or("")`, which has no lines, and `unwrap_or(0)` in
`count_lines`).  Object ids are collapsed: a change record carries the
blob contents its ids resolve to. -/

structure Blob where
  data : List Nat
  lines : List String
deriving DecidableEq, Repr

/-- `is_binary_object` from src/git/repo.rs lines 321-323: true iff one of
the first 8192 bytes is zero. -/
def is_binary_object (object : Blob) : Bool :=
  (object.data.take 8192).any (fun b => b == 0)

/-- `count_lines` from src/git/repo.rs lines 325-329. -/
def count_lines (object : Blob) : Nat :=
  object.lines.length

/-- `inspect_object` from src/git/repo.rs lines 314-319: binary flag and
line count (0 for binary blobs). -/
def inspect_object (object : Blob) : Bool × Nat :=
  let is_binary := is_binary_object object
  (is_binary, if is_binary then 0 else count_lines object)

/-- `ChangeDetached` from gix, as consumed by `handle_change` (repo.rs
lines 233-310): the change kinds of the external tree diff, with blob ids
replaced by the blob contents they resolve to. -/
inductive ChangeDetached where
  | Addition (id : Blob) (location : String)
  | Deletion (id : Blob) (location : String)
  | Modification (previous_id : Blob) (id : Blob) (location : String)
  | Rewrite (source_id : Blob) (id : Blob) (source_location : String)
      (location : String) (copy : Bool)
deriving DecidableEq, Repr

/-- The `(added, deleted)` value of `compute_line_diff` on two blobs.  The
`none` fallback is unreachable by `compute_line_diff_isSome`. -/
def line_diff_value (old_object new_object : Blob) : Nat × Nat :=
  match compute_line_diff old_object.lines new_object.lines with
  | some p => p
  | none => (0, 0)

/-- `handle_change` from src/git/repo.rs lines 227-312: resolves one change
record into zero, one or two `FileStats` entries appended to `files`.
`binary` is the include-binary flag. -/
def handle_change (change : ChangeDetached) (binary : Bool)
    (files : List FileStats) : List FileStats :=
  match change with
  | .Addition id location =>
    let is_binary := (inspect_object id).1
    let lines := (inspect_object id).2
    if binary || !is_binary then
      files ++ [{ path := location,
                  added_lines := if is_binary then 0 else lines,
                  deleted_lines := 0, is_binary := is_binary }]
    else files
  | .Deletion id location =>
    let is_binary := (inspect_object id).1
    let lines := (inspect_object id).2
    if binary || !is_binary then
      files ++ [{ path := location, added_lines := 0,
                  deleted_lines := if is_binary then 0 else lines,
                  is_binary := is_binary }]
    else files
  | .Modification previous_id id location =>
    let old_is_binary := (inspect_object previous_id).1
    let new_is_binary := (inspect_object id).1
    let is_binary := old_is_binary || new_is_binary
    if binary || !is_binary then
      let ad := if is_binary then (0, 0) else line_diff_value previous_id id
      files ++ [{ path := location, added_lines := ad.1,
                  deleted_lines := ad.2, is_binary := is_binary }]
    else files
  | .Rewrite source_id id source_location location copy =>
    let old_is_binary := (inspect_object source_id).1
    let new_is_binary := (inspect_object id).1
    let is_binary := old_is_binary || new_is_binary
    if binary || !is_binary then
      let ad := if is_binary then (0, 0) else line_diff_value source_id id
      files ++ [{ path := source_location, added_lines := 0,
                  deleted_lines := if copy then 0 else ad.2,
                  is_binary := is_binary },
                { path := location,
                  added_lines := if copy then ad.1 else 0,
                  deleted_lines := 0, is_binary := is_binary }]
    else files

/-- The binary classification of a change, as computed inside
`handle_change`: the blob's flag for Addition/Deletion, the disjunction of
both sides for Modification/Rewrite. -/
def change_is_binary (change : ChangeDetached) : Bool :=
  match change with
  | .Addition id _ => is_binary_object id
  | .Deletion id _ => is_binary_object id
  | .Modification previous_id id _ =>
      is_binary_object previous_id || is_binary_object id
  | .Rewrite source_id id _ _ _ =>
      is_binary_object source_id || is_binary_object id

/-! ### Cache (src/cache.rs)

The SQLite store is modelled as lists of rows.  Tables keep insertion
order; SQL statements are translated one by one: the WHERE clauses of
`get_commit_stats` become a filter, the LEFT JOIN plus HashMap grouping
become a map over the deduplicated in-range commit ids, `INSERT OR
REPLACE` removes the conflicting primary-key row and appends, `DELETE
FROM files WHERE commit_id = ?` is a filter, and `PRAGMA user_version`
is an integer field.  `parent_ids` is stored in the source as a JSON
string; the serialization is injective, so the row keeps the list
itself. -/

/-- One row of the `commits` table (src/cache.rs lines 29-36). -/
structure CommitRow where
  id : String
  author_name : String
  author_email : String
  message : String
  timestamp : Int
  parent_ids : List String
deriving DecidableEq, Repr

/-- One row of the `files` table (src/cache.rs lines 37-45). -/
structure FileRow where
  commit_id : String
  path : String
  added_lines : Nat
  deleted_lines : Nat
  is_binary : Bool
deriving DecidableEq, Repr

/-- The persistent state behind one cache connection: the two tables plus
the `user_version` pragma; `tables_created` records the idempotent DDL of
`initialize` (which never touches rows). -/
structure CacheState where
  commits : List CommitRow
  files : List FileRow
  user_version : Int
  tables_created : Bool
deriving DecidableEq, Repr

/-- The commit row written for a `CommitInfo` by `store_commit_stats`
(src/cache.rs lines 151-158). -/
def CommitRow.ofInfo (info : CommitInfo) : CommitRow :=
  { id := info.id, author_name := info.author_name,
    author_email := info.author_email, message := info.message,
    timestamp := info.timestamp, parent_ids := info.parent_ids }

/-- The file row written for a `FileStats` by `store_commit_stats`
(src/cache.rs lines 165-171). -/
def FileRow.ofStats (commit_id : String) (f : FileStats) : FileRow :=
  { commit_id := commit_id, path := f.path, added_lines := f.added_lines,
    deleted_lines := f.deleted_lines, is_binary := f.is_binary }

namespace Cache

/-- The WHERE clause of `get_commit_stats` (src/cache.rs lines 81-88):
`c.timestamp >= since` and `c.timestamp <= until`, each only when the
bound is present. -/
def tsFilter (range : DateRange) (ts : Int) : Bool :=
  (match range.since with
   | some s => decide (s ≤ ts)
   | none => true) &&
  (match range.until_ with
   | some u => decide (ts ≤ u)
   | none => true)

/-- A file row read back as `FileStats` (src/cache.rs lines 96-111). -/
def rowToFileStats (r : FileRow) : FileStats :=
  { path := r.path, added_lines := r.added_lines,
    deleted_lines := r.deleted_lines, is_binary := r.is_binary }

/-- The file rows joined to one commit id, in table order. -/
def filesFor (c : CacheState) (id : String) : List FileStats :=
  (c.files.filter (fun f => f.commit_id == id)).map rowToFileStats

/-- The comparison `a.commit_id.cmp(&b.commit_id)` used by the final
`sort_by` of `get_commit_stats` (src/cache.rs line 128). -/
def statsLE (a b : CommitStats) : Prop :=
  a.commit_id ≤ b.commit_id

instance : DecidableRel statsLE :=
  fun a b => inferInstanceAs (Decidable (a.commit_id ≤ b.commit_id))

instance : IsTotal CommitStats statsLE :=
  ⟨fun a b => le_total a.commit_id b.commit_id⟩

instance : IsTrans CommitStats statsLE :=
  ⟨fun _ _ _ h1 h2 => le_trans h1 h2⟩

/-- `get_commit_stats` from src/cache.rs lines 72-130: the in-range
commit rows are grouped by id (a commit with no file rows keeps an empty
list), and the result is sorted by commit id.  The source's `sort_by` is
a stable sort and the sorted stable permutation of a list is unique, so
`List.insertionSort` (also stable) gives the same list. -/
def get_commit_stats (c : CacheState) (range : DateRange) : List CommitStats :=
  let in_range := c.commits.filter (fun r => tsFilter range r.timestamp)
  let ids := (in_range.map (fun r => r.id)).dedup
  let grouped := ids.map (fun id =>
    ({ commit_id := id, files := filesFor c id } : CommitStats))
  List.insertionSort statsLE grouped

/-- `HashMap::get` on the commit-info map passed to `store_commit_stats`,
as an association-list lookup. -/
def lookupInfo (infos : List (String × CommitInfo)) (id : String) :
    Option CommitInfo :=
  (infos.find? (fun e => e.1 == id)).map (fun e => e.2)

/-- The `seen_paths` de-duplication of src/cache.rs lines 162-173: keep
the first row for each path. -/
def dedupFilesGo (seen_paths : List String) : List FileStats → List FileStats
  | [] => []
  | f :: rest =>
    if seen_paths.contains f.path then dedupFilesGo seen_paths rest
    else f :: dedupFilesGo (f.path :: seen_paths) rest

/-- The de-duplicated-by-path file list inserted for one commit. -/
def dedupFilesByPath (files : List FileStats) : List FileStats :=
  dedupFilesGo [] files

/-- The body of the per-entry loop of `store_commit_stats` (src/cache.rs
lines 149-175): skip the entry when no info is present; otherwise upsert
the commit row (replace-on-conflict on the id), delete the commit's file
rows and insert the de-duplicated new ones. -/
def storeOne (st : CacheState) (stats : CommitStats)
    (infos : List (String × CommitInfo)) : CacheState :=
  match lookupInfo infos stats.commit_id with
  | none => st
  | some info =>
    { st with
      commits := st.commits.filter (fun r => !(r.id == info.id)) ++
        [CommitRow.ofInfo info],
      files := st.files.filter (fun r => !(r.commit_id == stats.commit_id)) ++
        (dedupFilesByPath stats.files).map (FileRow.ofStats stats.commit_id) }

/-- `store_commit_stats` from src/cache.rs lines 132-183: one transaction
over all entries, modelled as a pure fold (the embedding is sequential,
so the transaction is atomic by construction). -/
def store_commit_stats (st : CacheState) (commits : List CommitStats)
    (infos : List (String × CommitInfo)) : CacheState :=
  commits.foldl (fun s cs => storeOne s cs infos) st

/-- `get_missing_commits` from src/cache.rs lines 185-204: empty input
short-circuits; otherwise the ids found by `SELECT id FROM commits WHERE
id IN (...)` are collected and the input is filtered. -/
def get_missing_commits (c : CacheState) (all_commit_ids : List String) :
    List String :=
  if all_commit_ids.isEmpty then []
  else
    let existing := (c.commits.map (fun r => r.id)).filter
      (fun id => all_commit_ids.contains id)
    all_commit_ids.filter (fun id => !(existing.contains id))

/-- `check_schema_version` from src/cache.rs lines 54-70: stamp a fresh
store (`user_version = 0`), fail on a non-zero mismatch (returning the
state untouched), accept a match.  The pair carries the post-state and
the optional error, mirroring the `&mut self` receiver. -/
def check_schema_version (c : CacheState) : CacheState × Option GmapError :=
  if c.user_version == 0 then
    ({ c with user_version := SCHEMA_VERSION }, none)
  else if !(c.user_version == SCHEMA_VERSION) then
    (c, some (.Cache "Schema version mismatch"))
  else
    (c, none)

/-- The `CREATE TABLE IF NOT EXISTS` / `CREATE INDEX IF NOT EXISTS` batch
of `initialize` (src/cache.rs lines 27-49): idempotent DDL, never touches
rows. -/
def createSchema (c : CacheState) : CacheState :=
  { c with tables_created := true }

/-- `initialize` from src/cache.rs lines 26-52: run the DDL batch, then
check the schema version. -/
def init (c : CacheState) : CacheState × Option GmapError :=
  check_schema_version (createSchema c)

end Cache

/-! ### GitRepo: range resolution and the commit walk (src/git/repo.rs) -/

/-- `resolve_range` from src/git/repo.rs lines 41-65, embedded after the
two `parse_commit_or_date` resolutions (parsing consults the clock and
the repository and is abstracted; the arguments are the resolved
instants, `none` when the corresponding argument was absent). -/
def resolve_range (since_dt until_dt : Option Int) : Except GmapError DateRange :=
  match since_dt, until_dt with
  | some s, some u =>
    if s > u then .error (.InvalidDate "Invalid range: since is after until")
    else .ok { since := some s, until_ := some u }
  | some s, none => .ok { since := some s, until_ := none }
  | none, some u => .ok { since := none, until_ := some u }
  | none, none => .ok { since := none, until_ := none }

/-- `CommitMeta` from src/git/repo.rs lines 10-17 (timestamps as epoch
seconds). -/
structure CommitMeta where
  timestamp : Int
  author_name : String
  author_email : String
  message_title : String
  parent_ids : List String
deriving DecidableEq, Repr

/-- The repository as seen by the walker: the resolved head commit id,
the commit object table consulted by `find_commit`, and the per-commit
file stats produced by the tree-to-tree diff of `compute_commit_stats`
(repo.rs lines 208-219; the gix tree diff enumeration is external to the
embedded code and abstracted as `filesOf`, while the per-change
resolution `handle_change` it feeds is embedded above). -/
structure WalkRepo where
  head : String
  table : List (String × CommitMeta)
  filesOf : String → List FileStats

/-- `find_commit` plus metadata reads (repo.rs lines 133-150), as a table
lookup: `none` models the error of a missing object. -/
def findMeta (repo : WalkRepo) (id : String) : Option CommitMeta :=
  (repo.table.find? (fun e => e.1 == id)).map (fun e => e.2)

/-- `compute_commit_stats` from src/git/repo.rs lines 201-225: the
resulting `CommitStats` carries the walked commit id and the resolved
file entries. -/
def compute_commit_stats (repo : WalkRepo) (commit_id : String) : CommitStats :=
  { commit_id := commit_id, files := repo.filesOf commit_id }

/-- An upper bound on the number of loop iterations of the walk: the walk
pops one id per iteration, and the ids ever pushed are the head plus the
parents of each table entry processed at most once (the `seen` set). -/
def walkFuel (repo : WalkRepo) : Nat :=
  1 + repo.table.length + (repo.table.map (fun e => e.2.parent_ids.length)).sum

/-- The worklist loop of `collect_commits` (src/git/repo.rs lines
125-195), fuel-indexed.  The `VecDeque` is used as a LIFO stack
(`push_back`/`pop_back`); pushing the parents in order means the reversed
parent list lands on top of the remaining stack.  The per-walk metadata
memo (lines 130-153) caches only pure lookups in this model and is
observationally the identity, so it is omitted; the progress bar is
display-only and omitted.  Running out of fuel gives a distinguished
error that the source cannot produce, so `.ok` results are genuine
terminations. -/
def collectGo (repo : WalkRepo) (range : DateRange) (include_merges : Bool)
    (binary : Bool) :
    Nat → List String → List String → List CommitStats →
      Except GmapError (List CommitStats)
  | _, [], _, commits => .ok commits
  | 0, _ :: _, _, _ => .error (.Other "walk fuel exhausted")
  | fuel + 1, commit_id :: rest, seen, commits =>
    if seen.contains commit_id then
      collectGo repo range include_merges binary fuel rest seen commits
    else
      match findMeta repo commit_id with
      | none => .error (.GitRepo "commit not found")
      | some meta =>
        if !(range.contains meta.timestamp) then
          collectGo repo range include_merges binary fuel
            (meta.parent_ids.reverse ++ rest) (commit_id :: seen) commits
        else if !include_merges && decide (meta.parent_ids.length > 1) then
          collectGo repo range include_merges binary fuel
            (meta.parent_ids.reverse ++ rest) (commit_id :: seen) commits
        else
          collectGo repo range include_merges binary fuel
            (meta.parent_ids.reverse ++ rest) (commit_id :: seen)
            (commits ++ [compute_commit_stats repo commit_id])

/-- `collect_commits` from src/git/repo.rs lines 104-199 (head resolution
abstracted as `repo.head`). -/
def collect_commits (repo : WalkRepo) (range : DateRange)
    (include_merges : Bool) (binary : Bool) :
    Except GmapError (List CommitStats) :=
  collectGo repo range include_merges binary (walkFuel repo) [repo.head] [] []

/-- Modelled from the spec: `list_commit_ids(range, include_merges)` is
called at src/heat/fetch.rs line 32 but defined nowhere under src/; per
spec section 4.6 it is "a lightweight pass that yields ids only, without
computing diffs", i.e. the walk of section 4.4 with the same filters,
accumulating ids instead of stats.  This is its loop. -/
def listIdsGo (repo : WalkRepo) (range : DateRange) (include_merges : Bool) :
    Nat → List String → List String → List String →
      Except GmapError (List String)
  | _, [], _, acc => .ok acc
  | 0, _ :: _, _, _ => .error (.Other "walk fuel exhausted")
  | fuel + 1, commit_id :: rest, seen, acc =>
    if seen.contains commit_id then
      listIdsGo repo range include_merges fuel rest seen acc
    else
      match findMeta repo commit_id with
      | none => .error (.GitRepo "commit not found")
      | some meta =>
        if !(range.contains meta.timestamp) then
          listIdsGo repo range include_merges fuel
            (meta.parent_ids.reverse ++ rest) (commit_id :: seen) acc
        else if !include_merges && decide (meta.parent_ids.length > 1) then
          listIdsGo repo range include_merges fuel
            (meta.parent_ids.reverse ++ rest) (commit_id :: seen) acc
        else
          listIdsGo repo range include_merges fuel
            (meta.parent_ids.reverse ++ rest) (commit_id :: seen)
            (acc ++ [commit_id])

/-- Modelled from the spec: `list_commit_ids` (see `listIdsGo`). -/
def list_commit_ids (repo : WalkRepo) (range : DateRange)
    (include_merges : Bool) : Except GmapError (List String) :=
  listIdsGo repo range include_merges (walkFuel repo) [repo.head] [] []

/-- `get_commit_info` from src/git/repo.rs lines 385-403: resolve the id
and read the commit metadata; the returned info carries the queried id. -/
def get_commit_info (repo : WalkRepo) (commit_id : String) :
    Except GmapError CommitInfo :=
  match findMeta repo commit_id with
  | none => .error (.GitRepo "commit not found")
  | some meta =>
    .ok { id := commit_id, author_name := meta.author_name,
          author_email := meta.author_email, message := meta.message_title,
          timestamp := meta.timestamp, parent_ids := meta.parent_ids }

/-- Modelled from the spec: `compute_commit_stats_for(oid, binary)` is
called at src/heat/fetch.rs line 42 but defined nowhere under src/; per
spec section 4.6 step 4 it runs "the full walker/diff path to build one
CommitStats" for one commit, i.e. `compute_commit_stats` (repo.rs lines
201-225) against the commit's first parent. -/
def compute_commit_stats_for (repo : WalkRepo) (commit_id : String) :
    CommitStats :=
  compute_commit_stats repo commit_id

/-- The `CommitInfo` that `get_commit_info` returns for a commit id
present in the repository (for an absent id, a placeholder that the
theorems never rely on).  Proof-layer helper naming the value, so the
fetch theorems can state what ends up in the cache. -/
def infoFromRepo (repo : WalkRepo) (id : String) : CommitInfo :=
  match findMeta repo id with
  | some meta =>
    ⟨id, meta.author_name, meta.author_email, meta.message_title,
      meta.timestamp, meta.parent_ids⟩
  | none => ⟨id, "", "", "", 0, []⟩

/-! ### FetchOrchestrator (src/heat/fetch.rs) -/

/-- The commit-info collection loop of src/heat/fetch.rs lines 48-53,
generalized over the starting map for the proofs: for each stats entry,
look up its metadata and insert it into the map on success (HashMap
insert = remove the old binding, append the new one); a failed lookup is
silently skipped. -/
def infosFoldFrom (repo : WalkRepo) (stats : List CommitStats)
    (m : List (String × CommitInfo)) : List (String × CommitInfo) :=
  stats.foldl (fun m s =>
    match get_commit_info repo s.commit_id with
    | .ok info => m.filter (fun e => !(e.1 == s.commit_id)) ++
        [(s.commit_id, info)]
    | .error _ => m) m

/-- The commit-info map built by `fetch_commit_stats_with_progress`
(starting from the empty HashMap). -/
def infosFold (repo : WalkRepo) (stats : List CommitStats) :
    List (String × CommitInfo) :=
  infosFoldFrom repo stats []

/-- `fetch_commit_stats_with_progress` from src/heat/fetch.rs lines
17-61.  Besides the returned list and the threaded cache state, the
result carries the number of `compute_commit_stats_for` invocations the
call performed (the length of the missing-id list), which the theorems
about recomputation refer to. -/
def fetch_commit_stats_with_progress (repo : WalkRepo) (c : CacheState)
    (range : DateRange) (include_merges : Bool) (binary : Bool)
    (_progress : Bool) :
    Except GmapError (List CommitStats × CacheState × Nat) :=
  let cached_stats := Cache.get_commit_stats c range
  let existing_ids := cached_stats.map (fun s => s.commit_id)
  match list_commit_ids repo range include_merges with
  | .error e => .error e
  | .ok repo_ids =>
    let missing_ids := repo_ids.filter (fun id => !(existing_ids.contains id))
    let missing_stats := missing_ids.map
      (fun id => compute_commit_stats_for repo id)
    if missing_stats.isEmpty then
      .ok (cached_stats, c, missing_ids.length)
    else
      let commit_infos := infosFold repo missing_stats
      let c1 := Cache.store_commit_stats c missing_stats commit_infos
      .ok (cached_stats ++ missing_stats, c1, missing_ids.length)

/-- `fetch_commit_stats` from src/heat/fetch.rs lines 7-15. -/
def fetch_commit_stats (repo : WalkRepo) (c : CacheState) (range : DateRange)
    (include_merges : Bool) (binary : Bool) :
    Except GmapError (List CommitStats × CacheState × Nat) :=
  fetch_commit_stats_with_progress repo c range include_merges binary true

/-! ### Concrete fixtures used by witnesses and examples -/

/-- The commit graph A -> M(parents A, B) -> head of claim C4: head `H`
(timestamp 10, one parent), merge `M` (timestamp 9, parents A and B), and
roots `A` (timestamp 5) and `B` (timestamp 6). -/
def diamondRepo : WalkRepo :=
  { head := "H",
    table := [("H", ⟨10, "an", "ae", "msg", ["M"]⟩),
              ("M", ⟨9, "an", "ae", "msg", ["A", "B"]⟩),
              ("A", ⟨5, "an", "ae", "msg", []⟩),
              ("B", ⟨6, "an", "ae", "msg", []⟩)],
    filesOf := fun _ => [] }

/-- The output of walking `diamondRepo` over [0, 100] with merges
excluded. -/
def diamondOut : List CommitStats :=
  [⟨"H", []⟩, ⟨"B", []⟩, ⟨"A", []⟩]

/-! ### Theorems: LineDiffEngine -/

/-- When the loop condition fails (both inputs exhausted) the loop returns
the accumulated counts, whatever the fuel. -/
theorem lineDiffGo_done (old new : List String) (fuel oi ni added deleted : Nat)
    (h : ¬ (oi < old.length ∨ ni < new.length)) :
    lineDiffGo old new fuel oi ni added deleted = some (added, deleted) := by
  cases fuel <;> rw [lineDiffGo] <;> rw [if_neg h]

/-- Old side exhausted: the remaining new lines are all counted as added. -/
theorem lineDiffGo_old_exhausted (old new : List String) (fuel oi ni added deleted : Nat)
    (h1 : old.length ≤ oi) (h2 : ni < new.length) :
    lineDiffGo old new (fuel + 1) oi ni added deleted =
      some (added + (new.length - ni), deleted) := by
  rw [lineDiffGo, if_pos (Or.inr h2), if_pos h1]

/-- New side exhausted: the remaining old lines are all counted as deleted. -/
theorem lineDiffGo_new_exhausted (old new : List String) (fuel oi ni added deleted : Nat)
    (h1 : oi < old.length) (h2 : new.length ≤ ni) :
    lineDiffGo old new (fuel + 1) oi ni added deleted =
      some (added, deleted + (old.length - oi)) := by
  rw [lineDiffGo, if_pos (Or.inl h1), if_neg (by omega), if_pos h2]

/-- Equal current lines: both cursors advance, no count changes. -/
theorem lineDiffGo_equal (old new : List String) (fuel oi ni added deleted : Nat)
    (h1 : oi < old.length) (h2 : ni < new.length)
    (he : old.getD oi "" = new.getD ni "") :
    lineDiffGo old new (fuel + 1) oi ni added deleted =
      lineDiffGo old new fuel (oi + 1) (ni + 1) added deleted := by
  rw [lineDiffGo, if_pos (Or.inl h1), if_neg (by omega), if_neg (by omega),
    if_pos (beq_iff_eq.mpr he)]

/-- The mismatch step of the source loop (repo.rs lines 358-379): the six
window checks are tried in `interleavedProbeOrder`, the first match wins,
the matched count is incremented by its lookahead distance and only the
corresponding cursor advances; if none matches, a one-line substitution is
recorded. -/
theorem lineDiffGo_mismatch (old new : List String) (fuel oi ni added deleted : Nat)
    (h1 : oi < old.length) (h2 : ni < new.length)
    (hne : old.getD oi "" ≠ new.getD ni "") :
    lineDiffGo old new (fuel + 1) oi ni added deleted =
      match interleavedProbeOrder.find? (probeMatches old new oi ni) with
      | some (true, k) => lineDiffGo old new fuel (oi + k) ni added (deleted + k)
      | some (false, k) => lineDiffGo old new fuel oi (ni + k) (added + k) deleted
      | none => lineDiffGo old new fuel (oi + 1) (ni + 1) (added + 1) (deleted + 1) := by
  rw [lineDiffGo, if_pos (Or.inl h1), if_neg (by omega), if_neg (by omega),
    if_neg (by simpa using hne)]
  simp only [interleavedProbeOrder, List.find?, probeMatches]
  cases hb1 : (decide (oi + 1 < old.length) && (old.getD (oi + 1) "" == new.getD ni "")) <;>
    simp only [hb1]
  case true => rfl
  cases hb2 : (decide (ni + 1 < new.length) && (old.getD oi "" == new.getD (ni + 1) "")) <;>
    simp only [hb2]
  case true => rfl
  cases hb3 : (decide (oi + 2 < old.length) && (old.getD (oi + 2) "" == new.getD ni "")) <;>
    simp only [hb3]
  case true => rfl
  cases hb4 : (decide (ni + 2 < new.length) && (old.getD oi "" == new.getD (ni + 2) "")) <;>
    simp only [hb4]
  case true => rfl
  cases hb5 : (decide (oi + 3 < old.length) && (old.getD (oi + 3) "" == new.getD ni "")) <;>
    simp only [hb5]
  case true => rfl
  cases hb6 : (decide (ni + 3 < new.length) && (old.getD oi "" == new.getD (ni + 3) "")) <;>
    simp only [hb6]
  case true => rfl
  rfl

/-- Every pair in the interleaved probe order has lookahead distance
between 1 and 3. -/
theorem interleavedProbeOrder_k_bounds (b : Bool) (k : Nat)
    (h : (b, k) ∈ interleavedProbeOrder) : 1 ≤ k ∧ k ≤ 3 := by
  simp only [interleavedProbeOrder, List.mem_cons, List.not_mem_nil, or_false,
    Prod.mk.injEq] at h
  rcases h with ⟨_, rfl⟩ | ⟨_, rfl⟩ | ⟨_, rfl⟩ | ⟨_, rfl⟩ | ⟨_, rfl⟩ | ⟨_, rfl⟩ <;> omega

/-- Fuel sufficiency for the line-diff loop: with fuel at least the sum of
the remaining line counts, `lineDiffGo` never runs out of fuel, so
`compute_line_diff` (which passes `old.length + new.length`) models the
total Rust loop. -/
theorem lineDiffGo_isSome (old new : List String) :
    ∀ (fuel oi ni added deleted : Nat),
      old.length - oi + (new.length - ni) ≤ fuel →
      (lineDiffGo old new fuel oi ni added deleted).isSome := by
  intro fuel
  induction fuel with
  | zero =>
    intro oi ni added deleted h
    rw [lineDiffGo_done old new 0 oi ni added deleted (by omega)]
    rfl
  | succ fuel ih =>
    intro oi ni added deleted h
    by_cases hdone : oi < old.length ∨ ni < new.length
    · by_cases h1 : old.length ≤ oi
      · have h2 : ni < new.length := by omega
        rw [lineDiffGo_old_exhausted old new fuel oi ni added deleted h1 h2]
        rfl
      · have h1' : oi < old.length := by omega
        by_cases h2 : new.length ≤ ni
        · rw [lineDiffGo_new_exhausted old new fuel oi ni added deleted h1' h2]
          rfl
        · have h2' : ni < new.length := by omega
          by_cases he : old.getD oi "" = new.getD ni ""
          · rw [lineDiffGo_equal old new fuel oi ni added deleted h1' h2' he]
            exact ih _ _ _ _ (by omega)
          · rw [lineDiffGo_mismatch old new fuel oi ni added deleted h1' h2' he]
            rcases hfind : interleavedProbeOrder.find? (probeMatches old new oi ni) with
              _ | ⟨b, k⟩
            · exact ih _ _ _ _ (by omega)
            · have hk := interleavedProbeOrder_k_bounds b k
                (List.mem_of_find?_eq_some hfind)
              cases b
              · exact ih _ _ _ _ (by omega)
              · exact ih _ _ _ _ (by omega)
    · rw [lineDiffGo_done old new (fuel + 1) oi ni added deleted hdone]
      rfl

/-- `compute_line_diff` always yields a result: the fuel bound in its
definition is sufficient. -/
theorem compute_line_diff_isSome (old new : List String) :
    (compute_line_diff old new).isSome :=
  lineDiffGo_isSome old new (old.length + new.length) 0 0 0 0 (by omega)

/-- Claim C2 (amended): in the line-diff algorithm, whenever
old[oi] != new[ni], the bounded lookahead window 1..=3 is probed in the
interleaved order: for each k = 1, 2, 3 in increasing order the
deletion-lookahead check old[oi+k] == new[ni] is tried and then the
insertion-lookahead check new[ni+k] == old[oi]; the first successful check
wins: deleted (resp. added) is incremented by k, the corresponding cursor
advances by k, and the other cursor does not advance (and if no check
succeeds, a one-line substitution is recorded). -/
theorem line_diff_interleaved_lookahead (old new : List String)
    (fuel oi ni added deleted : Nat)
    (h1 : oi < old.length) (h2 : ni < new.length)
    (hne : old.getD oi "" ≠ new.getD ni "") :
    lineDiffGo old new (fuel + 1) oi ni added deleted =
      match interleavedProbeOrder.find? (probeMatches old new oi ni) with
      | some (true, k) => lineDiffGo old new fuel (oi + k) ni added (deleted + k)
      | some (false, k) => lineDiffGo old new fuel oi (ni + k) (added + k) deleted
      | none => lineDiffGo old new fuel (oi + 1) (ni + 1) (added + 1) (deleted + 1) :=
  lineDiffGo_mismatch old new fuel oi ni added deleted h1 h2 hne

/-- Witness for `line_diff_interleaved_lookahead` at a concrete state:
old = ["a", "p", "b"], new = ["b", "a", "b"], both cursors at 0. -/
theorem line_diff_interleaved_lookahead_witness :
    lineDiffGo ["a", "p", "b"] ["b", "a", "b"] (5 + 1) 0 0 0 0 =
      match interleavedProbeOrder.find?
          (probeMatches ["a", "p", "b"] ["b", "a", "b"] 0 0) with
      | some (true, k) => lineDiffGo ["a", "p", "b"] ["b", "a", "b"] 5 (0 + k) 0 0 (0 + k)
      | some (false, k) => lineDiffGo ["a", "p", "b"] ["b", "a", "b"] 5 0 (0 + k) (0 + k) 0
      | none => lineDiffGo ["a", "p", "b"] ["b", "a", "b"] 5 (0 + 1) (0 + 1) (0 + 1) (0 + 1) :=
  line_diff_interleaved_lookahead ["a", "p", "b"] ["b", "a", "b"] 5 0 0 0 0
    (by decide) (by decide) (by decide)

/-- Counterexample to claim C2 as stated: on old = ["a", "p", "b"],
new = ["b", "a", "b"] at oi = ni = 0 (where old[0] != new[0]), the source
loop's first successful check is the insertion lookahead at k = 1, even
though the deletion lookahead at k = 2 also matches; under the claimed
order (all deletion checks before any insertion check) the deletion check
at k = 2 would win, and the final counts differ: the source returns
(added, deleted) = (1, 1) while the claimed order yields (2, 2). -/
theorem line_diff_order_counterexample :
    compute_line_diff ["a", "p", "b"] ["b", "a", "b"] = some (1, 1) ∧
    claim_line_diff ["a", "p", "b"] ["b", "a", "b"] = some (2, 2) ∧
    interleavedProbeOrder.find? (probeMatches ["a", "p", "b"] ["b", "a", "b"] 0 0) =
      some (false, 1) ∧
    claimedProbeOrder.find? (probeMatches ["a", "p", "b"] ["b", "a", "b"] 0 0) =
      some (true, 2) := by
  refine ⟨by decide, by decide, by decide, by decide⟩

/-- The concrete line-diff cases listed in the specification, evaluated on
the embedded engine. -/
theorem compute_line_diff_spec_cases :
    compute_line_diff ["a", "b", "c"] ["a", "b", "c"] = some (0, 0) ∧
    compute_line_diff ["a", "b", "c"] ["a", "x", "c"] = some (1, 1) ∧
    compute_line_diff ["a", "b", "c"] ["a", "c"] = some (0, 1) ∧
    compute_line_diff [] ["x", "y"] = some (2, 0) ∧
    compute_line_diff ["x", "y"] [] = some (0, 2) := by
  refine ⟨by decide, by decide, by decide, by decide, by decide⟩

/-! ### Theorems: change handling -/

/-- Claim C3: for every non-excluded Rewrite change between two text
blobs with line-diff result (added, deleted), exactly two FileStats
entries are emitted: one at the source path with added_lines = 0 and
deleted_lines = (0 if copy else deleted), and one at the destination path
with added_lines = (added if copy else 0) and deleted_lines = 0, both
carrying is_binary = (old side binary OR new side binary). -/
theorem rewrite_emits_two_entries (source_id id : Blob)
    (source_location location : String) (copy binary : Bool)
    (files : List FileStats) (added deleted : Nat)
    (hold : is_binary_object source_id = false)
    (hnew : is_binary_object id = false)
    (hdiff : compute_line_diff source_id.lines id.lines = some (added, deleted)) :
    handle_change (.Rewrite source_id id source_location location copy)
        binary files =
      files ++
        [{ path := source_location, added_lines := 0,
           deleted_lines := if copy then 0 else deleted,
           is_binary := is_binary_object source_id || is_binary_object id },
         { path := location, added_lines := if copy then added else 0,
           deleted_lines := 0,
           is_binary := is_binary_object source_id || is_binary_object id }] := by
  simp [handle_change, inspect_object, line_diff_value, hold, hnew, hdiff]

/-- Witness for `rewrite_emits_two_entries`: a concrete pure rename of a
one-line text file whose line changed. -/
theorem rewrite_emits_two_entries_witness :
    handle_change
        (.Rewrite ⟨[120], ["x"]⟩ ⟨[121], ["y"]⟩ "old.txt" "new.txt" false)
        false [] =
      [] ++
        [{ path := "old.txt", added_lines := 0,
           deleted_lines := if false then 0 else 1,
           is_binary := is_binary_object ⟨[120], ["x"]⟩ ||
             is_binary_object ⟨[121], ["y"]⟩ },
         { path := "new.txt", added_lines := if false then 1 else 0,
           deleted_lines := 0,
           is_binary := is_binary_object ⟨[120], ["x"]⟩ ||
             is_binary_object ⟨[121], ["y"]⟩ }] :=
  rewrite_emits_two_entries ⟨[120], ["x"]⟩ ⟨[121], ["y"]⟩ "old.txt" "new.txt"
    false false [] 1 1 (by decide) (by decide) (by decide)

/-- Claim C6: a blob is binary iff one of its first 8192 bytes is 0x00;
a change classified binary is dropped when include_binary is false, and
appears with is_binary = true and zero line counts when include_binary is
true. -/
theorem binary_detection_and_handling :
    (∀ b : Blob, is_binary_object b = true ↔
      ∃ i, i < 8192 ∧ b.data.get? i = some 0) ∧
    (∀ (change : ChangeDetached) (files : List FileStats),
      change_is_binary change = true →
      handle_change change false files = files ∧
      ∃ extra, handle_change change true files = files ++ extra ∧
        extra ≠ [] ∧
        ∀ fs ∈ extra, fs.is_binary = true ∧ fs.added_lines = 0 ∧
          fs.deleted_lines = 0) := by
  constructor
  · intro b
    rw [is_binary_object, List.any_eq_true]
    constructor
    · rintro ⟨x, hx, hx0⟩
      have hx0' : x = 0 := by simpa using hx0
      subst hx0'
      obtain ⟨⟨i, hilt⟩, hget⟩ := List.mem_iff_get.mp hx
      refine ⟨i, ?_, ?_⟩
      · have := hilt
        simp only [List.length_take] at this
        omega
      · have hi2 : i < 8192 := by
          have := hilt
          simp only [List.length_take] at this
          omega
        rw [← List.get?_take hi2]
        rw [List.get?_eq_get hilt, hget]
    · rintro ⟨i, hi, hget⟩
      refine ⟨0, ?_, by simp⟩
      have : (b.data.take 8192).get? i = some 0 := by
        rw [List.get?_take hi]
        exact hget
      exact List.get?_mem this
  · intro change files hbin
    cases change with
    | Addition id location =>
      have hb : is_binary_object id = true := hbin
      constructor
      · simp [handle_change, inspect_object, hb]
      · refine ⟨[⟨location, 0, 0, true⟩], ?_, by simp, ?_⟩
        · simp [handle_change, inspect_object, hb]
        · intro fs hfs
          simp only [List.mem_singleton] at hfs
          subst hfs
          exact ⟨rfl, rfl, rfl⟩
    | Deletion id location =>
      have hb : is_binary_object id = true := hbin
      constructor
      · simp [handle_change, inspect_object, hb]
      · refine ⟨[⟨location, 0, 0, true⟩], ?_, by simp, ?_⟩
        · simp [handle_change, inspect_object, hb]
        · intro fs hfs
          simp only [List.mem_singleton] at hfs
          subst hfs
          exact ⟨rfl, rfl, rfl⟩
    | Modification previous_id id location =>
      have hb : (is_binary_object previous_id || is_binary_object id) = true := hbin
      constructor
      · simp [handle_change, inspect_object, hb]
      · refine ⟨[⟨location, 0, 0, true⟩], ?_, by simp, ?_⟩
        · simp [handle_change, inspect_object, hb]
        · intro fs hfs
          simp only [List.mem_singleton] at hfs
          subst hfs
          exact ⟨rfl, rfl, rfl⟩
    | Rewrite source_id id source_location location copy =>
      have hb : (is_binary_object source_id || is_binary_object id) = true := hbin
      constructor
      · simp [handle_change, inspect_object, hb]
      · refine ⟨[⟨source_location, 0, 0, true⟩, ⟨location, 0, 0, true⟩],
          ?_, by simp, ?_⟩
        · simp [handle_change, inspect_object, hb]
        · intro fs hfs
          simp only [List.mem_cons, List.mem_singleton, List.not_mem_nil,
            or_false] at hfs
          rcases hfs with rfl | rfl
          · exact ⟨rfl, rfl, rfl⟩
          · exact ⟨rfl, rfl, rfl⟩

/-- Witness for `binary_detection_and_handling`: a concrete binary blob
(single zero byte) added with include_binary = false is dropped. -/
theorem binary_detection_and_handling_witness :
    handle_change (.Addition ⟨[0], []⟩ "img.png") false [] = [] :=
  (binary_detection_and_handling.2 (.Addition ⟨[0], []⟩ "img.png") []
    (by decide)).1

/-! ### Theorems: range resolution and schema check -/

/-- Claim C10: `resolve_range` returns an InvalidDate error whenever both
a since and an until expression are supplied and since resolves to an
instant strictly after until; otherwise it returns a DateRange whose
since/until fields are exactly the resolved instants (or absent when the
corresponding argument is absent). -/
theorem resolve_range_spec :
    (∀ s u : Int, s > u →
      resolve_range (some s) (some u) =
        .error (.InvalidDate "Invalid range: since is after until")) ∧
    (∀ s u : Int, ¬ s > u →
      resolve_range (some s) (some u) = .ok ⟨some s, some u⟩) ∧
    (∀ s : Int, resolve_range (some s) none = .ok ⟨some s, none⟩) ∧
    (∀ u : Int, resolve_range none (some u) = .ok ⟨none, some u⟩) ∧
    resolve_range none none = .ok ⟨none, none⟩ := by
  refine ⟨?_, ?_, ?_, ?_, rfl⟩
  · intro s u h
    simp [resolve_range, h]
  · intro s u h
    simp [resolve_range, h]
  · intro s
    rfl
  · intro u
    rfl

/-- Witness for `resolve_range_spec`: since = 5 after until = 3 is
rejected with an InvalidDate error. -/
theorem resolve_range_spec_witness :
    resolve_range (some 5) (some 3) =
      .error (.InvalidDate "Invalid range: since is after until") :=
  resolve_range_spec.1 5 3 (by decide)

/-- Claim C5: for every existing cache whose stamped schema-version
marker is non-zero and differs from the expected SCHEMA_VERSION,
initialization returns an error (never migrates, never restamps), and the
rows already stored in the commits and files tables are unchanged after
the failed initialization. -/
theorem schema_mismatch_fails_without_change (c : CacheState)
    (h0 : c.user_version ≠ 0) (h1 : c.user_version ≠ SCHEMA_VERSION) :
    (Cache.init c).2 = some (.Cache "Schema version mismatch") ∧
    (Cache.init c).1.commits = c.commits ∧
    (Cache.init c).1.files = c.files ∧
    (Cache.init c).1.user_version = c.user_version := by
  have e0 : (c.user_version == 0) = false := by
    simpa using h0
  have e1 : (c.user_version == SCHEMA_VERSION) = false := by
    simpa using h1
  simp [Cache.init, Cache.createSchema, Cache.check_schema_version, e0, e1]

/-- Witness for `schema_mismatch_fails_without_change`: a cache stamped
with version 2 and one stored commit row. -/
theorem schema_mismatch_fails_without_change_witness :
    (Cache.init ⟨[⟨"x", "a", "e", "m", 5, []⟩], [], 2, true⟩).2 =
      some (.Cache "Schema version mismatch") ∧
    (Cache.init ⟨[⟨"x", "a", "e", "m", 5, []⟩], [], 2, true⟩).1.commits =
      [⟨"x", "a", "e", "m", 5, []⟩] ∧
    (Cache.init ⟨[⟨"x", "a", "e", "m", 5, []⟩], [], 2, true⟩).1.files = [] ∧
    (Cache.init ⟨[⟨"x", "a", "e", "m", 5, []⟩], [], 2, true⟩).1.user_version = 2 :=
  schema_mismatch_fails_without_change ⟨[⟨"x", "a", "e", "m", 5, []⟩], [], 2, true⟩
    (by decide) (by decide)

/-! ### Theorems: get_missing_commits -/

/-- Claim C9: `get_missing_commits` preserves the order and multiplicity
of its input: the output is exactly the input list with the ids already
stored in the commits table filtered out (hence a sublist of the input,
with each missing id kept with its input multiplicity), and the empty
input returns the empty list. -/
theorem get_missing_commits_spec (c : CacheState) (ids : List String) :
    Cache.get_missing_commits c ids =
      ids.filter (fun id => !((c.commits.map (fun r => r.id)).contains id)) ∧
    Cache.get_missing_commits c [] = [] ∧
    List.Sublist (Cache.get_missing_commits c ids) ids ∧
    ∀ id : String, (Cache.get_missing_commits c ids).count id =
      if (c.commits.map (fun r => r.id)).contains id then 0
      else ids.count id := by
  have hmain : Cache.get_missing_commits c ids =
      ids.filter (fun id => !((c.commits.map (fun r => r.id)).contains id)) := by
    cases he : ids.isEmpty
    · rw [Cache.get_missing_commits, he]
      simp only [Bool.false_eq_true, if_false]
      apply List.filter_congr
      intro id hid
      congr 1
      refine Bool.eq_iff_iff.mpr ?_
      rw [List.elem_iff, List.elem_iff]
      constructor
      · intro hmem
        exact (List.mem_filter.mp hmem).1
      · intro hmem
        exact List.mem_filter.mpr ⟨hmem, List.elem_iff.mpr hid⟩
    · have hnil : ids = [] := List.isEmpty_iff.mp he
      subst hnil
      rfl
  refine ⟨hmain, rfl, ?_, ?_⟩
  · rw [hmain]
    exact List.filter_sublist ids
  · intro id
    rw [hmain]
    by_cases hc : (c.commits.map (fun r => r.id)).contains id = true
    · rw [if_pos hc]
      refine List.count_eq_zero.mpr ?_
      intro hmem
      have hp := (List.mem_filter.mp hmem).2
      rw [hc] at hp
      simp at hp
    · rw [if_neg hc]
      have hfalse : (c.commits.map (fun r => r.id)).contains id = false :=
        Bool.not_eq_true _ ▸ eq_false_of_ne_true hc
      refine List.count_filter ?_
      rw [hfalse]
      rfl

/-! ### Theorems: the commit walk -/

/-- Claim C4: filtering never prunes ancestry.  First part: whenever a
popped unseen commit resolves to metadata whose timestamp is outside the
range, or that has more than one parent while merges are excluded, the
walk continues with the commit marked seen, its parents pushed onto the
worklist, and the output accumulator unchanged.  Second part: in the
graph A -> M(parents A, B) -> head with merges excluded, A and B (whose
timestamps satisfy the range) appear in the output even though M does
not. -/
theorem walker_filter_preserves_ancestry :
    (∀ (repo : WalkRepo) (range : DateRange) (include_merges binary : Bool)
       (fuel : Nat) (commit_id : String) (rest seen : List String)
       (commits : List CommitStats) (meta : CommitMeta),
       commit_id ∉ seen →
       findMeta repo commit_id = some meta →
       (range.contains meta.timestamp = false ∨
         (include_merges = false ∧ meta.parent_ids.length > 1)) →
       collectGo repo range include_merges binary (fuel + 1)
           (commit_id :: rest) seen commits =
         collectGo repo range include_merges binary fuel
           (meta.parent_ids.reverse ++ rest) (commit_id :: seen) commits) ∧
    (collect_commits diamondRepo ⟨some 0, some 100⟩ false false =
        .ok diamondOut ∧
      (∃ s ∈ diamondOut, s.commit_id = "A") ∧
      (∃ s ∈ diamondOut, s.commit_id = "B") ∧
      (∀ s ∈ diamondOut, s.commit_id ≠ "M")) := by
  constructor
  · intro repo range include_merges binary fuel commit_id rest seen commits
      meta hseen hmeta hfilter
    have hcontains : seen.contains commit_id = false := by
      rw [← Bool.not_eq_true]
      intro hc
      exact hseen (List.elem_iff.mp hc)
    rw [collectGo, hcontains]
    simp only [Bool.false_eq_true, if_false, hmeta]
    rcases hfilter with hr | ⟨hm, hp⟩
    · rw [hr]
      rfl
    · subst hm
      by_cases hr : range.contains meta.timestamp
      · rw [hr]
        simp only [Bool.not_true, Bool.false_eq_true, if_false]
        rw [if_pos]
        simp only [Bool.not_false, Bool.true_and]
        exact decide_eq_true hp
      · rw [Bool.not_eq_true] at hr
        rw [hr]
        rfl
  · refine ⟨by rfl, ⟨⟨"A", []⟩, by decide, rfl⟩, ⟨⟨"B", []⟩, by decide, rfl⟩, ?_⟩
    intro st hst
    fin_cases hst <;> decide

/-- Witness for `walker_filter_preserves_ancestry`: the merge commit M of
the diamond graph is popped unseen, filtered out as a merge, and its
parents A and B are pushed. -/
theorem walker_filter_preserves_ancestry_witness :
    collectGo diamondRepo ⟨some 0, some 100⟩ false false (5 + 1)
        ["M"] ["H"] [⟨"H", []⟩] =
      collectGo diamondRepo ⟨some 0, some 100⟩ false false 5
        ["B", "A"] ["M", "H"] [⟨"H", []⟩] :=
  walker_filter_preserves_ancestry.1 diamondRepo ⟨some 0, some 100⟩ false false
    5 "M" [] ["H"] [⟨"H", []⟩] ⟨9, "an", "ae", "msg", ["A", "B"]⟩
    (by decide) (by rfl) (Or.inr ⟨rfl, by decide⟩)

/-! ### Theorems: get_commit_stats -/

/-- The SQL WHERE clause of `get_commit_stats` is the inclusive bound
check of the claim. -/
theorem tsFilter_iff (range : DateRange) (ts : Int) :
    Cache.tsFilter range ts = true ↔
      ((∀ sv, range.since = some sv → sv ≤ ts) ∧
       (∀ uv, range.until_ = some uv → ts ≤ uv)) := by
  rcases range with ⟨hs, hu⟩
  cases hs <;> cases hu <;> simp [Cache.tsFilter]

/-- Membership characterization of `get_commit_stats`: a stats entry is
returned iff some stored commit row carries its id with an in-range
timestamp, and its files are exactly the joined file rows of that id. -/
theorem mem_get_commit_stats (c : CacheState) (range : DateRange)
    (s : CommitStats) :
    s ∈ Cache.get_commit_stats c range ↔
      ((∃ r ∈ c.commits, r.id = s.commit_id ∧
          Cache.tsFilter range r.timestamp = true) ∧
        s.files = Cache.filesFor c s.commit_id) := by
  unfold Cache.get_commit_stats
  rw [List.Perm.mem_iff (List.perm_insertionSort Cache.statsLE _)]
  simp only [List.mem_map, List.mem_dedup, List.mem_filter]
  constructor
  · rintro ⟨id, ⟨r, ⟨hrmem, hts⟩, hrid⟩, rfl⟩
    exact ⟨⟨r, hrmem, hrid, hts⟩, rfl⟩
  · rintro ⟨⟨r, hrmem, hrid, hts⟩, hfiles⟩
    refine ⟨s.commit_id, ⟨r, ⟨hrmem, hts⟩, hrid⟩, ?_⟩
    cases s
    simp only at hfiles
    rw [hfiles]

/-- Claim C7: for every range, `get_commit_stats` returns exactly the
stored commits whose timestamp satisfies the range's inclusive
since/until bounds, each grouped into one CommitStats (a commit with zero
stored file rows appears with an empty files list, since its joined file
list is empty), and the returned list is sorted by commit_id ascending in
lexicographic string order, with one entry per id. -/
theorem get_commit_stats_spec (c : CacheState) (range : DateRange) :
    (∀ s ∈ Cache.get_commit_stats c range,
        s.files = Cache.filesFor c s.commit_id) ∧
    (∀ id : String,
        (∃ s ∈ Cache.get_commit_stats c range, s.commit_id = id) ↔
        (∃ r ∈ c.commits, r.id = id ∧
          (∀ sv, range.since = some sv → sv ≤ r.timestamp) ∧
          (∀ uv, range.until_ = some uv → r.timestamp ≤ uv))) ∧
    ((Cache.get_commit_stats c range).map (fun s => s.commit_id)).Nodup ∧
    (Cache.get_commit_stats c range).Pairwise
      (fun a b => a.commit_id ≤ b.commit_id) := by
  refine ⟨?_, ?_, ?_, ?_⟩
  · intro s hs
    exact ((mem_get_commit_stats c range s).mp hs).2
  · intro id
    constructor
    · rintro ⟨s, hs, rfl⟩
      obtain ⟨⟨r, hrmem, hrid, hts⟩, -⟩ := (mem_get_commit_stats c range s).mp hs
      exact ⟨r, hrmem, hrid, (tsFilter_iff range r.timestamp).mp hts⟩
    · rintro ⟨r, hrmem, hrid, hbounds⟩
      refine ⟨⟨id, Cache.filesFor c id⟩, ?_, rfl⟩
      exact (mem_get_commit_stats c range ⟨id, Cache.filesFor c id⟩).mpr
        ⟨⟨r, hrmem, hrid, (tsFilter_iff range r.timestamp).mpr hbounds⟩, rfl⟩
  · unfold Cache.get_commit_stats
    have hperm := List.perm_insertionSort Cache.statsLE
      (((c.commits.filter (fun r => Cache.tsFilter range r.timestamp)).map
        (fun r => r.id)).dedup.map (fun id =>
          ({ commit_id := id, files := Cache.filesFor c id } : CommitStats)))
    have hmap := hperm.map (fun s : CommitStats => s.commit_id)
    refine hmap.nodup_iff.mpr ?_
    rw [List.map_map]
    have hid : ((c.commits.filter
        (fun r => Cache.tsFilter range r.timestamp)).map
          (fun r => r.id)).dedup.map
        ((fun s : CommitStats => s.commit_id) ∘ (fun id =>
          ({ commit_id := id, files := Cache.filesFor c id } : CommitStats))) =
        ((c.commits.filter (fun r => Cache.tsFilter range r.timestamp)).map
          (fun r => r.id)).dedup := List.map_id _
    rw [hid]
    exact List.nodup_dedup _
  · exact List.sorted_insertionSort Cache.statsLE _

/-- Witness for `get_commit_stats_spec`: a concrete one-commit cache with
no file rows returns the commit with an empty files list. -/
theorem get_commit_stats_spec_witness :
    (⟨"x", []⟩ : CommitStats).files =
      Cache.filesFor ⟨[⟨"x", "a", "e", "m", 5, []⟩], [], 1, true⟩
        (⟨"x", []⟩ : CommitStats).commit_id :=
  (get_commit_stats_spec ⟨[⟨"x", "a", "e", "m", 5, []⟩], [], 1, true⟩
      ⟨some 0, some 10⟩).1 ⟨"x", []⟩ (by decide)

/-! ### Theorems: store_commit_stats -/

/-- A stats entry without a matching info is skipped: `storeOne` leaves
the state untouched. -/
theorem storeOne_none (st : CacheState) (s : CommitStats)
    (infos : List (String × CommitInfo))
    (h : Cache.lookupInfo infos s.commit_id = none) :
    Cache.storeOne st s infos = st := by
  rw [Cache.storeOne, h]

/-- With a matching info, `storeOne` upserts the commit row and replaces
the commit's file rows with the de-duplicated new ones. -/
theorem storeOne_some (st : CacheState) (s : CommitStats)
    (infos : List (String × CommitInfo)) (info : CommitInfo)
    (h : Cache.lookupInfo infos s.commit_id = some info) :
    Cache.storeOne st s infos =
      { st with
        commits := st.commits.filter (fun r => !(r.id == info.id)) ++
          [CommitRow.ofInfo info],
        files := st.files.filter (fun r => !(r.commit_id == s.commit_id)) ++
          (Cache.dedupFilesByPath s.files).map (FileRow.ofStats s.commit_id) } := by
  rw [Cache.storeOne, h]

/-- The path de-duplication is the identity on a list whose paths are
already distinct and avoid the seen set. -/
theorem dedupFilesGo_eq_self (files : List FileStats) :
    ∀ (seen : List String),
      (∀ f ∈ files, ¬ f.path ∈ seen) →
      (files.map (fun f => f.path)).Nodup →
      Cache.dedupFilesGo seen files = files := by
  induction files with
  | nil =>
    intro seen _ _
    rfl
  | cons f rest ih =>
    intro seen hseen hnodup
    have hc : seen.contains f.path = false := by
      rw [← Bool.not_eq_true]
      intro hcc
      exact hseen f (List.mem_cons_self f rest) (List.elem_iff.mp hcc)
    rw [Cache.dedupFilesGo, hc]
    simp only [Bool.false_eq_true, if_false]
    have hnodup' : (f.path :: rest.map (fun f => f.path)).Nodup := by
      simpa using hnodup
    congr 1
    apply ih
    · intro g hg hmem
      rcases List.mem_cons.mp hmem with heq | hseen'
      · exact (List.nodup_cons.mp hnodup').1
          (heq ▸ List.mem_map_of_mem (fun f => f.path) hg)
      · exact hseen g (List.mem_cons_of_mem f hg) hseen'
    · exact (List.nodup_cons.mp hnodup').2

/-- `dedupFilesByPath` is the identity on a duplicate-free file list. -/
theorem dedupFilesByPath_eq_self (files : List FileStats)
    (h : (files.map (fun f => f.path)).Nodup) :
    Cache.dedupFilesByPath files = files :=
  dedupFilesGo_eq_self files []
    (fun f _ hm => absurd hm (List.not_mem_nil f.path)) h

/-- Characterization of `store_commit_stats` when every entry has a
matching info and the entry ids are distinct: the commit table keeps the
non-conflicting old rows and appends one info row per entry, and the file
table keeps the rows of untouched commits and appends the de-duplicated
rows of each entry. -/
theorem store_characterization (stats : List CommitStats) :
    ∀ (st : CacheState) (infos : List (String × CommitInfo))
      (infoOf : CommitStats → CommitInfo),
      (∀ s ∈ stats, Cache.lookupInfo infos s.commit_id = some (infoOf s)) →
      (∀ s ∈ stats, (infoOf s).id = s.commit_id) →
      (stats.map (fun s => s.commit_id)).Nodup →
      (Cache.store_commit_stats st stats infos).commits =
          st.commits.filter (fun r =>
            !((stats.map (fun s => s.commit_id)).contains r.id)) ++
            stats.map (fun s => CommitRow.ofInfo (infoOf s)) ∧
      (Cache.store_commit_stats st stats infos).files =
          st.files.filter (fun r =>
            !((stats.map (fun s => s.commit_id)).contains r.commit_id)) ++
            (stats.map (fun s => (Cache.dedupFilesByPath s.files).map
              (FileRow.ofStats s.commit_id))).flatten := by
  induction stats with
  | nil =>
    intro st infos infoOf _ _ _
    constructor
    · simp only [List.map_nil, List.append_nil]
      symm
      apply List.filter_eq_self.mpr
      intro r _
      rfl
    · simp only [List.map_nil, List.flatten_nil, List.append_nil]
      symm
      apply List.filter_eq_self.mpr
      intro r _
      rfl
  | cons s rest ih =>
    intro st infos infoOf hlook hid hnodup
    have hs : Cache.lookupInfo infos s.commit_id = some (infoOf s) :=
      hlook s (List.mem_cons_self s rest)
    have hsid : (infoOf s).id = s.commit_id := hid s (List.mem_cons_self s rest)
    have hnodup' : (s.commit_id :: rest.map (fun t => t.commit_id)).Nodup := by
      simpa using hnodup
    have hnotin : ¬ s.commit_id ∈ rest.map (fun t => t.commit_id) :=
      (List.nodup_cons.mp hnodup').1
    have hncontains : (rest.map (fun t => t.commit_id)).contains s.commit_id
        = false := by
      rw [← Bool.not_eq_true]
      intro hcc
      exact hnotin (List.elem_iff.mp hcc)
    have hstore : Cache.store_commit_stats st (s :: rest) infos =
        Cache.store_commit_stats (Cache.storeOne st s infos) rest infos := rfl
    obtain ⟨ihc, ihf⟩ := ih (Cache.storeOne st s infos) infos infoOf
      (fun t ht => hlook t (List.mem_cons_of_mem s ht))
      (fun t ht => hid t (List.mem_cons_of_mem s ht))
      ((List.nodup_cons.mp hnodup').2)
    rw [hstore]
    have hst1 := storeOne_some st s infos (infoOf s) hs
    constructor
    · rw [ihc, hst1]
      simp only [hsid]
      rw [List.filter_append, List.filter_filter]
      have hrow : ([CommitRow.ofInfo (infoOf s)].filter (fun r =>
          !((rest.map (fun t => t.commit_id)).contains r.id))) =
          [CommitRow.ofInfo (infoOf s)] := by
        apply List.filter_eq_self.mpr
        intro r hr
        rw [List.mem_singleton] at hr
        subst hr
        show (!((rest.map (fun t => t.commit_id)).contains
          (CommitRow.ofInfo (infoOf s)).id)) = true
        have : (CommitRow.ofInfo (infoOf s)).id = s.commit_id := hsid
        rw [this, hncontains]
        rfl
      rw [hrow]
      simp only [List.map_cons, List.contains_cons, Bool.not_or]
      rw [List.append_assoc, List.singleton_append]
      congr 1
      apply List.filter_congr
      intro r _
      exact Bool.and_comm _ _
    · rw [ihf, hst1]
      rw [List.filter_append, List.filter_filter]
      have hrows : (((Cache.dedupFilesByPath s.files).map
          (FileRow.ofStats s.commit_id)).filter (fun r =>
            !((rest.map (fun t => t.commit_id)).contains r.commit_id))) =
          (Cache.dedupFilesByPath s.files).map (FileRow.ofStats s.commit_id) := by
        apply List.filter_eq_self.mpr
        intro r hr
        obtain ⟨f, _, rfl⟩ := List.mem_map.mp hr
        show (!((rest.map (fun t => t.commit_id)).contains s.commit_id)) = true
        rw [hncontains]
        rfl
      rw [hrows]
      simp only [List.map_cons, List.contains_cons, Bool.not_or, List.flatten_cons]
      rw [List.append_assoc]
      congr 1
      apply List.filter_congr
      intro r _
      exact Bool.and_comm _ _

/-- Claim C8: `store_commit_stats` runs as one transaction (the embedding
is a single pure state transform, atomic by construction) and, for every
stats entry with a matching info, upserts the commit row, deletes the
pre-existing file rows of that commit id and inserts its de-duplicated
file rows; entries without a matching info are skipped entirely — the
result equals the store of the info-bearing sublist — and the call always
succeeds. -/
theorem store_commit_stats_spec :
    (∀ (st : CacheState) (stats : List CommitStats)
       (infos : List (String × CommitInfo)),
       Cache.store_commit_stats st stats infos =
         Cache.store_commit_stats st
           (stats.filter (fun s => (Cache.lookupInfo infos s.commit_id).isSome))
           infos) ∧
    (∀ (st : CacheState) (stats : List CommitStats)
       (infos : List (String × CommitInfo))
       (infoOf : CommitStats → CommitInfo),
       (∀ s ∈ stats, Cache.lookupInfo infos s.commit_id = some (infoOf s)) →
       (∀ s ∈ stats, (infoOf s).id = s.commit_id) →
       (stats.map (fun s => s.commit_id)).Nodup →
       (Cache.store_commit_stats st stats infos).commits =
           st.commits.filter (fun r =>
             !((stats.map (fun s => s.commit_id)).contains r.id)) ++
             stats.map (fun s => CommitRow.ofInfo (infoOf s)) ∧
       (Cache.store_commit_stats st stats infos).files =
           st.files.filter (fun r =>
             !((stats.map (fun s => s.commit_id)).contains r.commit_id)) ++
             (stats.map (fun s => (Cache.dedupFilesByPath s.files).map
               (FileRow.ofStats s.commit_id))).flatten) := by
  constructor
  · intro st stats infos
    induction stats generalizing st with
    | nil => rfl
    | cons s rest ih =>
      cases hl : Cache.lookupInfo infos s.commit_id with
      | none =>
        have hskip : Cache.store_commit_stats st (s :: rest) infos =
            Cache.store_commit_stats st rest infos := by
          show Cache.store_commit_stats (Cache.storeOne st s infos) rest infos =
            Cache.store_commit_stats st rest infos
          rw [storeOne_none st s infos hl]
        rw [hskip, ih st]
        congr 1
        rw [List.filter_cons]
        rw [hl]
        simp
      | some info =>
        have hkeep : Cache.store_commit_stats st (s :: rest) infos =
            Cache.store_commit_stats (Cache.storeOne st s infos) rest infos := rfl
        rw [hkeep, ih (Cache.storeOne st s infos)]
        have : (s :: rest).filter
            (fun s => (Cache.lookupInfo infos s.commit_id).isSome) =
            s :: rest.filter
              (fun s => (Cache.lookupInfo infos s.commit_id).isSome) := by
          rw [List.filter_cons]
          rw [hl]
          simp
        rw [this]
        rfl
  · intro st stats infos infoOf hlook hid hnodup
    exact store_characterization stats st infos infoOf hlook hid hnodup

/-- Witness for `store_commit_stats_spec`: one concrete entry with an
info (stored, file rows replaced) alongside the characterization
hypotheses discharged on a one-entry list. -/
theorem store_commit_stats_spec_witness :
    (Cache.store_commit_stats ⟨[], [⟨"x", "p", 1, 2, false⟩], 1, true⟩
        [⟨"x", [⟨"q", 3, 4, false⟩]⟩]
        [("x", ⟨"x", "a", "e", "m", 5, []⟩)]).commits =
      ([] : List CommitRow).filter (fun r =>
        !((([⟨"x", [⟨"q", 3, 4, false⟩]⟩] : List CommitStats).map
          (fun s => s.commit_id)).contains r.id)) ++
        ([⟨"x", [⟨"q", 3, 4, false⟩]⟩] : List CommitStats).map
          (fun _ => CommitRow.ofInfo ⟨"x", "a", "e", "m", 5, []⟩) ∧
    (Cache.store_commit_stats ⟨[], [⟨"x", "p", 1, 2, false⟩], 1, true⟩
        [⟨"x", [⟨"q", 3, 4, false⟩]⟩]
        [("x", ⟨"x", "a", "e", "m", 5, []⟩)]).files =
      ([⟨"x", "p", 1, 2, false⟩] : List FileRow).filter (fun r =>
        !((([⟨"x", [⟨"q", 3, 4, false⟩]⟩] : List CommitStats).map
          (fun s => s.commit_id)).contains r.commit_id)) ++
        (([⟨"x", [⟨"q", 3, 4, false⟩]⟩] : List CommitStats).map (fun s =>
          (Cache.dedupFilesByPath s.files).map
            (FileRow.ofStats s.commit_id))).flatten :=
  store_commit_stats_spec.2 ⟨[], [⟨"x", "p", 1, 2, false⟩], 1, true⟩
    [⟨"x", [⟨"q", 3, 4, false⟩]⟩] [("x", ⟨"x", "a", "e", "m", 5, []⟩)]
    (fun _ => ⟨"x", "a", "e", "m", 5, []⟩)
    (by intro t ht; rw [List.mem_singleton] at ht; subst ht; rfl)
    (by intro t ht; rw [List.mem_singleton] at ht; subst ht; rfl)
    (by decide)

/-! ### Theorems: fetch orchestration -/

/-- The in-memory range check of the walker and the SQL range filter of
the cache agree. -/
theorem contains_iff_tsFilter (range : DateRange) (ts : Int) :
    DateRange.contains range ts = true ↔ Cache.tsFilter range ts = true := by
  rcases range with ⟨hs, hu⟩
  cases hs <;> cases hu <;> simp [DateRange.contains, Cache.tsFilter] <;> omega

/-- `get_commit_info` succeeds with the named info value on every id the
repository resolves. -/
theorem get_commit_info_eq (repo : WalkRepo) (id : String) (meta : CommitMeta)
    (h : findMeta repo id = some meta) :
    get_commit_info repo id = .ok (infoFromRepo repo id) := by
  simp [get_commit_info, infoFromRepo, h]

/-- The info value carries the queried id. -/
theorem infoFromRepo_id (repo : WalkRepo) (id : String) :
    (infoFromRepo repo id).id = id := by
  cases h : findMeta repo id <;> simp [infoFromRepo, h]

/-- The info value carries the commit's timestamp. -/
theorem infoFromRepo_timestamp (repo : WalkRepo) (id : String)
    (meta : CommitMeta) (h : findMeta repo id = some meta) :
    (infoFromRepo repo id).timestamp = meta.timestamp := by
  simp [infoFromRepo, h]

/-- Every id yielded by the id walk resolves in the repository and has an
in-range timestamp. -/
theorem listIdsGo_ok_inv (repo : WalkRepo) (range : DateRange) (m : Bool) :
    ∀ (fuel : Nat) (stack seen acc out : List String),
      listIdsGo repo range m fuel stack seen acc = .ok out →
      ∀ id ∈ out, id ∈ acc ∨ ∃ meta, findMeta repo id = some meta ∧
        range.contains meta.timestamp = true := by
  intro fuel
  induction fuel with
  | zero =>
    intro stack seen acc out h id hid
    cases stack with
    | nil =>
      rw [listIdsGo] at h
      cases h
      exact Or.inl hid
    | cons cid rest =>
      rw [listIdsGo] at h
      cases h
  | succ fuel ih =>
    intro stack seen acc out h id hid
    cases stack with
    | nil =>
      rw [listIdsGo] at h
      cases h
      exact Or.inl hid
    | cons cid rest =>
      rw [listIdsGo] at h
      split at h
      · exact ih rest seen acc out h id hid
      · split at h
        · cases h
        · next meta hmeta =>
          split at h
          · exact ih _ _ _ _ h id hid
          · next hr =>
            split at h
            · exact ih _ _ _ _ h id hid
            · rcases ih _ _ _ _ h id hid with hacc | hex
              · rcases List.mem_append.mp hacc with h1 | h2
                · exact Or.inl h1
                · rw [List.mem_singleton] at h2
                  subst h2
                  refine Or.inr ⟨meta, hmeta, ?_⟩
                  rcases hcr : range.contains meta.timestamp with _ | _
                  · rw [hcr] at hr
                    exact absurd rfl hr
                  · rfl
              · exact Or.inr hex

/-- The id walk yields each id at most once. -/
theorem listIdsGo_ok_nodup (repo : WalkRepo) (range : DateRange) (m : Bool) :
    ∀ (fuel : Nat) (stack seen acc out : List String),
      acc.Nodup → (∀ a ∈ acc, a ∈ seen) →
      listIdsGo repo range m fuel stack seen acc = .ok out →
      out.Nodup := by
  intro fuel
  induction fuel with
  | zero =>
    intro stack seen acc out hnd _ h
    cases stack with
    | nil =>
      rw [listIdsGo] at h
      cases h
      exact hnd
    | cons cid rest =>
      rw [listIdsGo] at h
      cases h
  | succ fuel ih =>
    intro stack seen acc out hnd hsub h
    cases stack with
    | nil =>
      rw [listIdsGo] at h
      cases h
      exact hnd
    | cons cid rest =>
      rw [listIdsGo] at h
      split at h
      · exact ih rest seen acc out hnd hsub h
      · next hseen =>
        have hcid_seen : ¬ cid ∈ seen := by
          intro hc
          exact hseen (List.elem_iff.mpr hc)
        split at h
        · cases h
        · split at h
          · refine ih _ _ _ _ hnd ?_ h
            intro a ha
            exact List.mem_cons_of_mem cid (hsub a ha)
          · split at h
            · refine ih _ _ _ _ hnd ?_ h
              intro a ha
              exact List.mem_cons_of_mem cid (hsub a ha)
            · refine ih _ _ _ _ ?_ ?_ h
              · refine List.Nodup.append hnd (List.nodup_singleton cid) ?_
                intro a ha hb
                rw [List.mem_singleton] at hb
                subst hb
                exact hcid_seen (hsub a ha)
              · intro a ha
                rcases List.mem_append.mp ha with h1 | h2
                · exact List.mem_cons_of_mem cid (hsub a h1)
                · rw [List.mem_singleton] at h2
                  subst h2
                  exact List.mem_cons_self _ _

/-- Filtering by a predicate implied by the search predicate does not
change the first match. -/
theorem find?_filter_of_imp {α : Type} (p q : α → Bool) (l : List α)
    (h : ∀ e, p e = true → q e = true) :
    (l.filter q).find? p = l.find? p := by
  induction l with
  | nil => rfl
  | cons a l ih =>
    cases hp : p a
    · cases hq : q a
      · rw [List.filter_cons_of_neg (by rw [hq]; exact Bool.false_ne_true)]
        rw [ih, List.find?_cons_of_neg _ (by rw [hp]; exact Bool.false_ne_true)]
      · rw [List.filter_cons_of_pos (by rw [hq])]
        rw [List.find?_cons_of_neg _ (by rw [hp]; exact Bool.false_ne_true),
          List.find?_cons_of_neg _ (by rw [hp]; exact Bool.false_ne_true)]
        exact ih
    · have hq : q a = true := h a hp
      rw [List.filter_cons_of_pos (by rw [hq])]
      rw [List.find?_cons_of_pos _ (by rw [hp]), List.find?_cons_of_pos _ (by rw [hp])]

/-- The HashMap-insert of the info-collection loop, characterized for the
association-list lookup. -/
theorem lookupInfo_insert (m : List (String × CommitInfo)) (k : String)
    (v : CommitInfo) (id : String) :
    Cache.lookupInfo (m.filter (fun e => !(e.1 == k)) ++ [(k, v)]) id =
      if id = k then some v else Cache.lookupInfo m id := by
  unfold Cache.lookupInfo
  rw [List.find?_append]
  by_cases hik : id = k
  · subst hik
    have hA : (m.filter (fun e => !(e.1 == id))).find?
        (fun e => e.1 == id) = none := by
      apply List.find?_eq_none.mpr
      intro e he hp
      have h2 := (List.mem_filter.mp he).2
      rw [hp] at h2
      exact absurd h2 (by simp)
    rw [hA, if_pos rfl]
    simp
  · rw [if_neg hik]
    rw [find?_filter_of_imp _ _ m ?imp]
    case imp =>
      intro e hp
      have : e.1 = id := by simpa using hp
      simp [this]
      exact fun hc => hik hc
    have hB : ([(k, v)] : List (String × CommitInfo)).find?
        (fun e => e.1 == id) = none := by
      apply List.find?_eq_none.mpr
      intro e he hp
      rw [List.mem_singleton] at he
      subst he
      have : k = id := by simpa using hp
      exact hik this.symm
    rw [hB]
    cases m.find? (fun e => e.1 == id) <;> rfl

/-- Lookup in the info map built by the collection loop: ids not among
the processed entries keep their old binding; processed ids (when every
processed entry resolves in the repository) map to the repository's
info. -/
theorem lookupInfo_infosFoldFrom (repo : WalkRepo) :
    ∀ (L : List CommitStats) (m : List (String × CommitInfo)) (id : String),
      (∀ s ∈ L, ∃ meta, findMeta repo s.commit_id = some meta) →
      ((¬ id ∈ L.map (fun s => s.commit_id) →
          Cache.lookupInfo (infosFoldFrom repo L m) id =
            Cache.lookupInfo m id) ∧
       (id ∈ L.map (fun s => s.commit_id) →
          Cache.lookupInfo (infosFoldFrom repo L m) id =
            some (infoFromRepo repo id))) := by
  intro L
  induction L with
  | nil =>
    intro m id _
    constructor
    · intro _
      rfl
    · intro hmem
      exact absurd hmem (List.not_mem_nil id)
  | cons s L ih =>
    intro m id hsucc
    obtain ⟨meta, hmeta⟩ := hsucc s (List.mem_cons_self s L)
    have hsucc' : ∀ t ∈ L, ∃ meta, findMeta repo t.commit_id = some meta :=
      fun t ht => hsucc t (List.mem_cons_of_mem s ht)
    have hstep : infosFoldFrom repo (s :: L) m =
        infosFoldFrom repo L
          (m.filter (fun e => !(e.1 == s.commit_id)) ++
            [(s.commit_id, infoFromRepo repo s.commit_id)]) := by
      simp only [infosFoldFrom, List.foldl_cons,
        get_commit_info_eq repo s.commit_id meta hmeta]
    constructor
    · intro hnot
      have hne : ¬ id = s.commit_id := by
        intro he
        exact hnot (by rw [List.map_cons]; exact he ▸ List.mem_cons_self _ _)
      have hnotL : ¬ id ∈ L.map (fun t => t.commit_id) := by
        intro he
        exact hnot (by rw [List.map_cons]; exact List.mem_cons_of_mem _ he)
      rw [hstep, (ih _ id hsucc').1 hnotL, lookupInfo_insert, if_neg hne]
    · intro hmem
      by_cases hL : id ∈ L.map (fun t => t.commit_id)
      · rw [hstep]
        exact (ih _ id hsucc').2 hL
      · have hid : id = s.commit_id := by
          rw [List.map_cons] at hmem
          rcases List.mem_cons.mp hmem with h1 | h2
          · exact h1
          · exact absurd h2 hL
        subst hid
        rw [hstep, (ih _ _ hsucc').1 hL, lookupInfo_insert, if_pos rfl]

/-- The inserted file rows of commits other than `id` never survive the
per-id join filter. -/
theorem flatten_rows_filter_not_mem (stats : List CommitStats) (id : String)
    (h : ¬ id ∈ stats.map (fun s => s.commit_id)) :
    ((stats.map (fun t => (Cache.dedupFilesByPath t.files).map
      (FileRow.ofStats t.commit_id))).flatten).filter
        (fun r => r.commit_id == id) = [] := by
  apply List.filter_eq_nil_iff.mpr
  intro r hr hp
  obtain ⟨l, hl, hrl⟩ := List.mem_flatten.mp hr
  obtain ⟨t, ht, rfl⟩ := List.mem_map.mp hl
  obtain ⟨f, _, rfl⟩ := List.mem_map.mp hrl
  have heq : t.commit_id = id := by simpa using hp
  exact h (heq ▸ List.mem_map_of_mem (fun s => s.commit_id) ht)

/-- With pairwise-distinct entry ids, the per-id join filter recovers
exactly the rows inserted for the one entry carrying that id. -/
theorem flatten_rows_filter_unique (stats : List CommitStats) (id : String)
    (s : CommitStats) (hnodup : (stats.map (fun t => t.commit_id)).Nodup)
    (hs : s ∈ stats) (hid : s.commit_id = id) :
    ((stats.map (fun t => (Cache.dedupFilesByPath t.files).map
      (FileRow.ofStats t.commit_id))).flatten).filter
        (fun r => r.commit_id == id) =
      (Cache.dedupFilesByPath s.files).map (FileRow.ofStats s.commit_id) := by
  induction stats with
  | nil => cases hs
  | cons t rest ih =>
    have hnodup' : (t.commit_id :: rest.map (fun u => u.commit_id)).Nodup := by
      simpa using hnodup
    simp only [List.map_cons, List.flatten_cons]
    rw [List.filter_append]
    rcases List.mem_cons.mp hs with rfl | hs'
    · have h1 : ((Cache.dedupFilesByPath s.files).map
          (FileRow.ofStats s.commit_id)).filter
            (fun r => r.commit_id == id) =
          (Cache.dedupFilesByPath s.files).map (FileRow.ofStats s.commit_id) := by
        apply List.filter_eq_self.mpr
        intro r hr
        obtain ⟨f, _, rfl⟩ := List.mem_map.mp hr
        simpa using hid
      have h2 : ¬ id ∈ rest.map (fun u => u.commit_id) := by
        rw [← hid]
        exact (List.nodup_cons.mp hnodup').1
      rw [h1, flatten_rows_filter_not_mem rest id h2, List.append_nil]
    · have htid : t.commit_id ≠ id := by
        intro he
        exact (List.nodup_cons.mp hnodup').1
          (he ▸ hid ▸ List.mem_map_of_mem (fun u => u.commit_id) hs')
      have h1 : ((Cache.dedupFilesByPath t.files).map
          (FileRow.ofStats t.commit_id)).filter
            (fun r => r.commit_id == id) = [] := by
        apply List.filter_eq_nil_iff.mpr
        intro r hr hp
        obtain ⟨f, _, rfl⟩ := List.mem_map.mp hr
        exact htid (by simpa using hp)
      rw [h1, List.nil_append]
      exact ih (List.nodup_cons.mp hnodup').2 hs'

/-- After a store, the joined files of a commit id not among the stored
entries are unchanged. -/
theorem filesFor_store_untouched (stats : List CommitStats) (c : CacheState)
    (infos : List (String × CommitInfo)) (infoOf : CommitStats → CommitInfo)
    (hlook : ∀ s ∈ stats, Cache.lookupInfo infos s.commit_id = some (infoOf s))
    (hid : ∀ s ∈ stats, (infoOf s).id = s.commit_id)
    (hnodup : (stats.map (fun s => s.commit_id)).Nodup) (id : String)
    (hnot : ¬ id ∈ stats.map (fun s => s.commit_id)) :
    Cache.filesFor (Cache.store_commit_stats c stats infos) id =
      Cache.filesFor c id := by
  obtain ⟨-, hfiles⟩ := store_characterization stats c infos infoOf hlook hid hnodup
  unfold Cache.filesFor
  rw [hfiles, List.filter_append, flatten_rows_filter_not_mem stats id hnot,
    List.append_nil, List.filter_filter]
  congr 1
  apply List.filter_congr
  intro r _
  cases hp : (r.commit_id == id)
  · rw [Bool.false_and]
  · rw [Bool.true_and]
    have heq : r.commit_id = id := by simpa using hp
    cases hcx : (stats.map (fun s => s.commit_id)).contains r.commit_id
    · rfl
    · exact absurd (heq ▸ List.elem_iff.mp hcx) hnot

/-- After a store, the joined files of a stored entry's commit id are
exactly the entry's de-duplicated files. -/
theorem filesFor_store_touched (stats : List CommitStats) (c : CacheState)
    (infos : List (String × CommitInfo)) (infoOf : CommitStats → CommitInfo)
    (hlook : ∀ s ∈ stats, Cache.lookupInfo infos s.commit_id = some (infoOf s))
    (hid : ∀ s ∈ stats, (infoOf s).id = s.commit_id)
    (hnodup : (stats.map (fun s => s.commit_id)).Nodup) (s : CommitStats)
    (hs : s ∈ stats) :
    Cache.filesFor (Cache.store_commit_stats c stats infos) s.commit_id =
      Cache.dedupFilesByPath s.files := by
  obtain ⟨-, hfiles⟩ := store_characterization stats c infos infoOf hlook hid hnodup
  unfold Cache.filesFor
  rw [hfiles, List.filter_append]
  have hA : ((c.files.filter (fun r =>
      !((stats.map (fun s => s.commit_id)).contains r.commit_id))).filter
        (fun r => r.commit_id == s.commit_id)) = [] := by
    apply List.filter_eq_nil_iff.mpr
    intro r hr hp
    have hpred := (List.mem_filter.mp hr).2
    have heq : r.commit_id = s.commit_id := by simpa using hp
    rw [heq] at hpred
    have hmem : s.commit_id ∈ stats.map (fun s => s.commit_id) :=
      List.mem_map_of_mem (fun s => s.commit_id) hs
    have hcx : (stats.map (fun s => s.commit_id)).contains s.commit_id = true :=
      List.elem_iff.mpr hmem
    rw [hcx] at hpred
    simp at hpred
  rw [hA, List.nil_append,
    flatten_rows_filter_unique stats s.commit_id s hnodup hs rfl,
    List.map_map]
  have hcomp : (Cache.rowToFileStats ∘ FileRow.ofStats s.commit_id) = id :=
    funext fun f => rfl
  rw [hcomp, List.map_id]

/-- `fetch_commit_stats_with_progress` when the walk succeeds and no
walked id is missing from the cached range query: the cached list is
returned unchanged and `compute_commit_stats_for` is invoked zero
times. -/
theorem fetch_no_missing (repo : WalkRepo) (c : CacheState) (range : DateRange)
    (m b p : Bool) (ids : List String)
    (hwalk : list_commit_ids repo range m = .ok ids)
    (hnm : ids.filter (fun id =>
        !(((Cache.get_commit_stats c range).map
          (fun s => s.commit_id)).contains id)) = []) :
    fetch_commit_stats_with_progress repo c range m b p =
      .ok (Cache.get_commit_stats c range, c, 0) := by
  unfold fetch_commit_stats_with_progress
  rw [hwalk]
  simp only [hnm, List.map_nil, List.isEmpty_nil, if_true, List.length_nil]

/-- `fetch_commit_stats_with_progress` when the walk succeeds and some
walked ids are missing: the cached list is extended with the computed
stats of the missing ids, the batch is stored, and the number of
`compute_commit_stats_for` invocations is the number of missing ids. -/
theorem fetch_with_missing (repo : WalkRepo) (c : CacheState) (range : DateRange)
    (m b p : Bool) (ids : List String)
    (hwalk : list_commit_ids repo range m = .ok ids)
    (hnm : ids.filter (fun id =>
        !(((Cache.get_commit_stats c range).map
          (fun s => s.commit_id)).contains id)) ≠ []) :
    fetch_commit_stats_with_progress repo c range m b p =
      .ok (Cache.get_commit_stats c range ++
          (ids.filter (fun id =>
            !(((Cache.get_commit_stats c range).map
              (fun s => s.commit_id)).contains id))).map
            (fun id => compute_commit_stats_for repo id),
        Cache.store_commit_stats c
          ((ids.filter (fun id =>
            !(((Cache.get_commit_stats c range).map
              (fun s => s.commit_id)).contains id))).map
            (fun id => compute_commit_stats_for repo id))
          (infosFold repo
            ((ids.filter (fun id =>
              !(((Cache.get_commit_stats c range).map
                (fun s => s.commit_id)).contains id))).map
              (fun id => compute_commit_stats_for repo id))),
        (ids.filter (fun id =>
          !(((Cache.get_commit_stats c range).map
            (fun s => s.commit_id)).contains id))).length) := by
  unfold fetch_commit_stats_with_progress
  rw [hwalk]
  have hne : ((ids.filter (fun id =>
      !(((Cache.get_commit_stats c range).map
        (fun s => s.commit_id)).contains id))).map
      (fun id => compute_commit_stats_for repo id)).isEmpty = false := by
    cases hm : ids.filter (fun id =>
        !(((Cache.get_commit_stats c range).map
          (fun s => s.commit_id)).contains id)) with
    | nil => exact absurd hm hnm
    | cons a t => rfl
  simp only [hne, Bool.false_eq_true, if_false, List.length_map]

/-- Claim C1: fetch is idempotent and computes each commit at most once.
Hypotheses: the id walk of the (unmodified) repository succeeds, and the
per-commit diff results carry pairwise-distinct file paths (as tree diffs
of a well-formed repository do).  Then two consecutive calls against the
same cache return set-identical CommitStats lists, the second call
invokes `compute_commit_stats_for` zero times (its invocation count is
0), and every id returned by the repository walk is already present in
the cached stats for the range after the first call. -/
theorem fetch_idempotent (repo : WalkRepo) (c : CacheState) (range : DateRange)
    (include_merges binary p1 p2 : Bool) (ids : List String)
    (hwalk : list_commit_ids repo range include_merges = .ok ids)
    (hpaths : ∀ id ∈ ids, ((repo.filesOf id).map (fun f => f.path)).Nodup) :
    ∃ out1 c1 n1 out2 c2,
      fetch_commit_stats_with_progress repo c range include_merges binary p1 =
        .ok (out1, c1, n1) ∧
      fetch_commit_stats_with_progress repo c1 range include_merges binary p2 =
        .ok (out2, c2, 0) ∧
      (∀ s, s ∈ out2 ↔ s ∈ out1) ∧
      (∀ id ∈ ids, ∃ s ∈ Cache.get_commit_stats c1 range, s.commit_id = id) := by
  have hids_inv : ∀ id ∈ ids, ∃ meta, findMeta repo id = some meta ∧
      range.contains meta.timestamp = true := by
    intro id hid
    rcases listIdsGo_ok_inv repo range include_merges (walkFuel repo)
      [repo.head] [] [] ids hwalk id hid with h0 | h
    · exact absurd h0 (List.not_mem_nil id)
    · exact h
  have hids_nodup : ids.Nodup :=
    listIdsGo_ok_nodup repo range include_merges (walkFuel repo)
      [repo.head] [] [] ids List.nodup_nil
      (fun a ha => absurd ha (List.not_mem_nil a)) hwalk
  by_cases hm : ids.filter (fun id =>
      !(((Cache.get_commit_stats c range).map
        (fun s => s.commit_id)).contains id)) = []
  · have hf1 := fetch_no_missing repo c range include_merges binary p1 ids
      hwalk hm
    have hf2 := fetch_no_missing repo c range include_merges binary p2 ids
      hwalk hm
    refine ⟨Cache.get_commit_stats c range, c, 0,
      Cache.get_commit_stats c range, c, hf1, hf2, fun s => Iff.rfl, ?_⟩
    intro id hid
    have hcontains : ((Cache.get_commit_stats c range).map
        (fun s => s.commit_id)).contains id = true := by
      cases hcc : ((Cache.get_commit_stats c range).map
          (fun s => s.commit_id)).contains id
      · exfalso
        have hmem : id ∈ ids.filter (fun id =>
            !(((Cache.get_commit_stats c range).map
              (fun s => s.commit_id)).contains id)) :=
          List.mem_filter.mpr ⟨hid, by rw [hcc]; rfl⟩
        rw [hm] at hmem
        exact List.not_mem_nil id hmem
      · rfl
    obtain ⟨s, hs, hsid⟩ := List.mem_map.mp (List.elem_iff.mp hcontains)
    exact ⟨s, hs, hsid⟩
  · have hf1 := fetch_with_missing repo c range include_merges binary p1 ids
      hwalk hm
    set M := ids.filter (fun id =>
      !(((Cache.get_commit_stats c range).map
        (fun s => s.commit_id)).contains id)) with hM
    set MS := M.map (fun id => compute_commit_stats_for repo id) with hMS
    set c1 := Cache.store_commit_stats c MS (infosFold repo MS) with hc1
    have hmap : MS.map (fun s => s.commit_id) = M := by
      rw [hMS, List.map_map]
      have hcomp : ((fun s : CommitStats => s.commit_id) ∘
          (fun id => compute_commit_stats_for repo id)) = id :=
        funext fun id => rfl
      rw [hcomp, List.map_id]
    have hM_sub : ∀ id ∈ M, id ∈ ids := by
      intro id hid
      rw [hM] at hid
      exact List.mem_of_mem_filter hid
    have hM_nodup : M.Nodup := by
      rw [hM]
      exact hids_nodup.filter _
    have hMS_nodup : (MS.map (fun s => s.commit_id)).Nodup := by
      rw [hmap]
      exact hM_nodup
    have hMSsucc : ∀ s ∈ MS, ∃ meta, findMeta repo s.commit_id = some meta := by
      intro s hsmem
      rw [hMS] at hsmem
      obtain ⟨id0, hid0, rfl⟩ := List.mem_map.mp hsmem
      obtain ⟨meta, hmeta, -⟩ := hids_inv id0 (hM_sub id0 hid0)
      exact ⟨meta, hmeta⟩
    have hlook : ∀ s ∈ MS, Cache.lookupInfo (infosFold repo MS) s.commit_id =
        some (infoFromRepo repo s.commit_id) := by
      intro s hsmem
      exact (lookupInfo_infosFoldFrom repo MS [] s.commit_id hMSsucc).2
        (List.mem_map_of_mem (fun s => s.commit_id) hsmem)
    have hidid : ∀ s ∈ MS, (infoFromRepo repo s.commit_id).id = s.commit_id :=
      fun s _ => infoFromRepo_id repo s.commit_id
    obtain ⟨hcommits, hfiles⟩ := store_characterization MS c
      (infosFold repo MS) (fun s => infoFromRepo repo s.commit_id)
      hlook hidid hMS_nodup
    rw [← hc1] at hcommits hfiles
    have hR1 : ∀ id ∈ ids, ∃ s ∈ Cache.get_commit_stats c1 range,
        s.commit_id = id := by
      intro id hid
      by_cases hin : id ∈ M
      · obtain ⟨meta, hmeta, hrange⟩ := hids_inv id hid
        refine ⟨⟨id, Cache.filesFor c1 id⟩, ?_, rfl⟩
        apply (mem_get_commit_stats c1 range _).mpr
        refine ⟨⟨CommitRow.ofInfo (infoFromRepo repo id), ?_, ?_, ?_⟩, rfl⟩
        · rw [hcommits]
          apply List.mem_append_right
          have hmem : compute_commit_stats_for repo id ∈ MS := by
            rw [hMS]
            exact List.mem_map_of_mem _ hin
          exact List.mem_map_of_mem _ hmem
        · exact infoFromRepo_id repo id
        · have ht : (CommitRow.ofInfo (infoFromRepo repo id)).timestamp =
              meta.timestamp := infoFromRepo_timestamp repo id meta hmeta
          rw [ht]
          exact (contains_iff_tsFilter range meta.timestamp).mp hrange
      · have hcontains : ((Cache.get_commit_stats c range).map
            (fun s => s.commit_id)).contains id = true := by
          cases hcc : ((Cache.get_commit_stats c range).map
              (fun s => s.commit_id)).contains id
          · exfalso
            apply hin
            rw [hM]
            exact List.mem_filter.mpr ⟨hid, by rw [hcc]; rfl⟩
          · rfl
        obtain ⟨s1, hs1, hs1id⟩ := List.mem_map.mp (List.elem_iff.mp hcontains)
        obtain ⟨⟨r, hr, hrid, hrts⟩, hs1files⟩ :=
          (mem_get_commit_stats c range s1).mp hs1
        refine ⟨⟨id, Cache.filesFor c1 id⟩,
          (mem_get_commit_stats c1 range _).mpr ⟨⟨r, ?_, ?_, hrts⟩, rfl⟩, rfl⟩
        · rw [hcommits]
          apply List.mem_append_left
          apply List.mem_filter.mpr
          refine ⟨hr, ?_⟩
          rw [hmap]
          cases hcx : M.contains r.id
          · rfl
          · exfalso
            apply hin
            have hidM : id ∈ M := by
              rw [← hs1id, ← hrid]
              exact List.elem_iff.mp hcx
            exact hidM
        · rw [hrid, hs1id]
    have hnm2 : ids.filter (fun id =>
        !(((Cache.get_commit_stats c1 range).map
          (fun s => s.commit_id)).contains id)) = [] := by
      apply List.filter_eq_nil_iff.mpr
      intro id hid hbang
      obtain ⟨s, hs, hsid⟩ := hR1 id hid
      have hcx : ((Cache.get_commit_stats c1 range).map
          (fun s => s.commit_id)).contains id = true := by
        apply List.elem_iff.mpr
        rw [← hsid]
        exact List.mem_map_of_mem _ hs
      rw [hcx] at hbang
      simp at hbang
    have hf2 := fetch_no_missing repo c1 range include_merges binary p2 ids
      hwalk hnm2
    have hR3 : ∀ s, s ∈ Cache.get_commit_stats c1 range ↔
        s ∈ Cache.get_commit_stats c range ++ MS := by
      intro s
      rw [List.mem_append]
      constructor
      · intro hs2
        obtain ⟨⟨r, hr, hrid, hrts⟩, hsfiles⟩ :=
          (mem_get_commit_stats c1 range s).mp hs2
        rw [hcommits] at hr
        rcases List.mem_append.mp hr with hrold | hrnew
        · obtain ⟨hrc, hrpred⟩ := List.mem_filter.mp hrold
          rw [hmap] at hrpred
          have hnotmiss : ¬ s.commit_id ∈ M := by
            intro hin
            have hcx : M.contains r.id = true := by
              apply List.elem_iff.mpr
              rw [hrid]
              exact hin
            rw [hcx] at hrpred
            simp at hrpred
          left
          apply (mem_get_commit_stats c range s).mpr
          refine ⟨⟨r, hrc, hrid, hrts⟩, ?_⟩
          rw [hsfiles, hc1]
          apply filesFor_store_untouched MS c (infosFold repo MS)
            (fun s => infoFromRepo repo s.commit_id) hlook hidid hMS_nodup
          rw [hmap]
          exact hnotmiss
        · obtain ⟨t, ht, hteq⟩ := List.mem_map.mp hrnew
          have htMS := ht
          rw [hMS] at htMS
          obtain ⟨id0, hid0, rfl⟩ := List.mem_map.mp htMS
          right
          have hrid2 : r.id = id0 := by
            rw [← hteq]
            exact infoFromRepo_id repo id0
          have hscid : s.commit_id = id0 := by
            rw [← hrid, hrid2]
          have hsf : s.files = repo.filesOf id0 := by
            rw [hsfiles, hscid, hc1]
            have h1 : Cache.filesFor
                (Cache.store_commit_stats c MS (infosFold repo MS)) id0 =
                Cache.dedupFilesByPath (repo.filesOf id0) :=
              filesFor_store_touched MS c (infosFold repo MS)
                (fun s => infoFromRepo repo s.commit_id) hlook hidid
                hMS_nodup (compute_commit_stats_for repo id0) ht
            have h2 : Cache.dedupFilesByPath (repo.filesOf id0) =
                repo.filesOf id0 :=
              dedupFilesByPath_eq_self _ (hpaths id0 (hM_sub id0 hid0))
            exact h1.trans h2
          have hseq : s = compute_commit_stats_for repo id0 := by
            cases s with
            | mk scid sfiles =>
              rw [show scid = id0 from hscid,
                show sfiles = repo.filesOf id0 from hsf]
              rfl
          rw [hseq]
          exact ht
      · intro h1
        rcases h1 with hsc | hsm
        · obtain ⟨⟨r, hr, hrid, hrts⟩, hsfiles⟩ :=
            (mem_get_commit_stats c range s).mp hsc
          have hnotmiss : ¬ s.commit_id ∈ M := by
            intro hin
            rw [hM] at hin
            have hpred := (List.mem_filter.mp hin).2
            have hmemmap : s.commit_id ∈ (Cache.get_commit_stats c range).map
                (fun s => s.commit_id) := List.mem_map_of_mem _ hsc
            have hcx : ((Cache.get_commit_stats c range).map
                (fun s => s.commit_id)).contains s.commit_id = true :=
              List.elem_iff.mpr hmemmap
            rw [hcx] at hpred
            simp at hpred
          apply (mem_get_commit_stats c1 range s).mpr
          refine ⟨⟨r, ?_, hrid, hrts⟩, ?_⟩
          · rw [hcommits]
            apply List.mem_append_left
            apply List.mem_filter.mpr
            refine ⟨hr, ?_⟩
            rw [hmap]
            cases hcx : M.contains r.id
            · rfl
            · exfalso
              apply hnotmiss
              rw [← hrid]
              exact List.elem_iff.mp hcx
          · rw [hsfiles, hc1]
            symm
            apply filesFor_store_untouched MS c (infosFold repo MS)
              (fun s => infoFromRepo repo s.commit_id) hlook hidid hMS_nodup
            rw [hmap]
            exact hnotmiss
        · have hsmM := hsm
          rw [hMS] at hsmM
          obtain ⟨id0, hid0, rfl⟩ := List.mem_map.mp hsmM
          obtain ⟨meta, hmeta, hrange⟩ := hids_inv id0 (hM_sub id0 hid0)
          apply (mem_get_commit_stats c1 range _).mpr
          refine ⟨⟨CommitRow.ofInfo (infoFromRepo repo id0), ?_, ?_, ?_⟩, ?_⟩
          · rw [hcommits]
            apply List.mem_append_right
            exact List.mem_map_of_mem _ hsm
          · exact infoFromRepo_id repo id0
          · have ht : (CommitRow.ofInfo (infoFromRepo repo id0)).timestamp =
                meta.timestamp := infoFromRepo_timestamp repo id0 meta hmeta
            rw [ht]
            exact (contains_iff_tsFilter range meta.timestamp).mp hrange
          · show repo.filesOf id0 = Cache.filesFor c1 id0
            rw [hc1]
            symm
            have h1 : Cache.filesFor
                (Cache.store_commit_stats c MS (infosFold repo MS)) id0 =
                Cache.dedupFilesByPath (repo.filesOf id0) :=
              filesFor_store_touched MS c (infosFold repo MS)
                (fun s => infoFromRepo repo s.commit_id) hlook hidid
                hMS_nodup (compute_commit_stats_for repo id0) hsm
            have h2 : Cache.dedupFilesByPath (repo.filesOf id0) =
                repo.filesOf id0 :=
              dedupFilesByPath_eq_self _ (hpaths id0 (hM_sub id0 hid0))
            exact h1.trans h2
    refine ⟨Cache.get_commit_stats c range ++ MS, c1, M.length,
      Cache.get_commit_stats c1 range, c1, hf1, hf2, hR3, hR1⟩

/-- Witness for `fetch_idempotent`: the diamond repository against an
empty cache over the range [0, 100]. -/
theorem fetch_idempotent_witness :
    ∃ out1 c1 n1 out2 c2,
      fetch_commit_stats_with_progress diamondRepo ⟨[], [], 1, true⟩
          ⟨some 0, some 100⟩ false false true = .ok (out1, c1, n1) ∧
      fetch_commit_stats_with_progress diamondRepo c1
          ⟨some 0, some 100⟩ false false true = .ok (out2, c2, 0) ∧
      (∀ s, s ∈ out2 ↔ s ∈ out1) ∧
      (∀ id ∈ ["H", "B", "A"],
        ∃ s ∈ Cache.get_commit_stats c1 ⟨some 0, some 100⟩,
          s.commit_id = id) :=
  fetch_idempotent diamondRepo ⟨[], [], 1, true⟩ ⟨some 0, some 100⟩
    false false true true ["H", "B", "A"] (by rfl) (by decide)

end Gmap
